import Mathlib

/-!
Shallow embedding of the plico constraint-solver core (src/src/solver) and
proofs about the claims of its specification.

Conventions of the embedding:
* `VariableId` (Rust `u32`) is modelled as `Nat`; constraint indices
  (`ConstraintId = usize`) as `Nat`; `ConstraintPriority = u32` as `Nat`.
  No claim depends on integer wrap-around of ids or priorities.
* The value type is instantiated at the crate's concrete `StandardValue`
  (`Int(i64)` | `Bool(bool)`), modelled with mathematical integers: no claim
  depends on `i64` overflow.
* `HashSetDomain` (an `im::HashSet` of values) is modelled as a `List SVal`
  kept duplicate-free by construction; the list order stands for the
  (arbitrary but fixed) iteration order of the hash set.  All operations the
  solver performs on domains are order-insensitive.
* `im::HashMap<VariableId, _>` is modelled as an association list; all reads
  go through `lookupD`, all writes through `updateD` (insert-or-replace).
* Rust panics (`unwrap` on a missing key, arithmetic on a `Bool` value) are
  modelled as the distinguished error `Err.panicked`, kept distinct from the
  crate's own `SolverError::Custom` (modelled as `Err.custom`; the message
  text is elided).  Loops whose termination is not structural take a fuel
  parameter and signal exhaustion with `Err.fuelExhausted`; every theorem
  below is conditioned on genuine completion, never on exhaustion.
-/

namespace Plico

/-- `StandardValue` from src/src/solver/value.rs: `Int(i64)` or `Bool(bool)`.
The derived Rust `Ord` orders all `Int` below all `Bool`, `Int` by the
integer, `Bool` by `false < true`. -/
inductive SVal where
  | int (z : Int)
  | bool (b : Bool)
deriving DecidableEq, Repr

/-- The derived `Ord`/`PartialOrd` on `StandardValue`, as a Boolean `≤`. -/
def svalLe : SVal → SVal → Bool
  | .int a, .int b => a ≤ b
  | .int _, .bool _ => true
  | .bool _, .int _ => false
  | .bool a, .bool b => !a || b

/-- `StandardValue::Bool(true)` -/
def trueV : SVal := .bool true

/-- `StandardValue::Bool(false)` -/
def falseV : SVal := .bool false

/-- Errors surfaced by the embedded solver.  `custom` models
`SolverError::Custom` (message elided); `panicked` models a Rust panic
(`unwrap` on `None`, arithmetic on an unsupported variant); `fuelExhausted`
is a fuel artifact of the embedding, not a behaviour of the source. -/
inductive Err where
  | custom
  | panicked
  | fuelExhausted
deriving DecidableEq, Repr

/-- `ValueArithmetic::add` for `StandardValue`: integer addition, panic on
any `Bool` operand. -/
def svalAdd : SVal → SVal → Except Err SVal
  | .int a, .int b => .ok (.int (a + b))
  | _, _ => .error .panicked

/-- `ValueArithmetic::sub` for `StandardValue`. -/
def svalSub : SVal → SVal → Except Err SVal
  | .int a, .int b => .ok (.int (a - b))
  | _, _ => .error .panicked

/-- A `HashSetDomain`: duplicate-free list of values standing for the hash
set; order models the unspecified iteration order. -/
abbrev Dom := List SVal

/-- `DomainRepresentation::len`. -/
def Dom.len (d : Dom) : Nat := List.length d

/-- `DomainRepresentation::get_singleton_value`: the sole element when the
domain has exactly one, otherwise `none`. -/
def Dom.singletonVal : Dom → Option SVal
  | [v] => some v
  | _ => none

/-- `DomainRepresentation::retain` for `HashSetDomain`: filter. -/
def Dom.retain (d : Dom) (p : SVal → Bool) : Dom := List.filter p d

/-- `DomainRepresentation::intersect` for `HashSetDomain`: keep the values
also present in the other domain. -/
def Dom.inter (d other : Dom) : Dom := List.filter (fun v => other.contains v) d

/-- `DomainRepresentation::contains`. -/
def Dom.containsV (d : Dom) (v : SVal) : Bool := List.contains d v

/-- `get_min_value` = `iter().min()`: first minimum of the iteration. -/
def Dom.minV : Dom → Option SVal
  | [] => none
  | v :: rest =>
    match Dom.minV rest with
    | none => some v
    | some m => some (if svalLe v m then v else m)

/-- `get_max_value` = `iter().max()`: last maximum of the iteration. -/
def Dom.maxV : Dom → Option SVal
  | [] => none
  | v :: rest =>
    match Dom.maxV rest with
    | none => some v
    | some m => some (if svalLe m v then v else m)

/-- The persistent map `VariableId → Domain`, as an association list. -/
abbrev Domains := List (Nat × Dom)

/-- `HashMap::get`. -/
def lookupD : Domains → Nat → Option Dom
  | [], _ => none
  | (k, d) :: rest, v => if k = v then some d else lookupD rest v

/-- `HashMap::update` / `insert`: replace the binding if the key is present,
append it otherwise. -/
def updateD : Domains → Nat → Dom → Domains
  | [], k, d => [(k, d)]
  | (k', d') :: rest, k, d =>
    if k' = k then (k, d) :: rest else (k', d') :: updateD rest k d

/-- The keys of a domain map. -/
def keysD (ds : Domains) : List Nat := ds.map Prod.fst

/-- `Solution` (src/src/solver/solution.rs): domains, variable metadata and
the shared semantics handle.  Metadata tags are opaque naturals; the
semantics handle is modelled by the identity of the shared `Arc`. -/
structure Solution where
  domains : Domains
  metadata : List (Nat × Nat)
  semanticsId : Nat
deriving DecidableEq, Repr

/-- `Solution::is_complete`: every domain is a singleton. -/
def Solution.isComplete (s : Solution) : Bool :=
  s.domains.all (fun kv => kv.2.len = 1)

/-- `Solution::clone_with_domains`: new domains, same metadata and the same
semantics handle. -/
def Solution.cloneWithDomains (s : Solution) (ds : Domains) : Solution :=
  { domains := ds, metadata := s.metadata, semanticsId := s.semanticsId }

/-- `solution.domains.get(&v).unwrap()`: a missing key is a panic. -/
def getDom (s : Solution) (v : Nat) : Except Err Dom :=
  match lookupD s.domains v with
  | some d => .ok d
  | none => .error .panicked

/-- The catalogue of built-in constraints (src/src/solver/constraints/),
instantiated at `StandardValue`.  Constructor fields mirror the Rust
structs. -/
inductive Constraint where
  | equal (a b : Nat)
  | notEqual (a b : Nat)
  | allDifferent (vars : List Nat)
  | absDiffNotEqual (x y : Nat) (c : SVal)
  | sumOf (terms : List Nat) (sum : Nat)
  | booleanOr (vars : List Nat)
  | reifiedEqual (b x y : Nat)
  | reifiedOr (bOut : Nat) (bIn : List Nat)
  | reifiedMemberOf (b : Nat) (vars : List Nat) (dataSet : List (List SVal))
deriving DecidableEq, Repr

/-- `Constraint::variables()` for each built-in (`all_vars` construction for
`sumOf`, `reifiedOr` and `reifiedMemberOf` appends the distinguished
variable last, as in the sources). -/
def Constraint.variablesOf : Constraint → List Nat
  | .equal a b => [a, b]
  | .notEqual a b => [a, b]
  | .allDifferent vars => vars
  | .absDiffNotEqual x y _ => [x, y]
  | .sumOf terms sum => terms ++ [sum]
  | .booleanOr vars => vars
  | .reifiedEqual b x y => [b, x, y]
  | .reifiedOr bOut bIn => bIn ++ [bOut]
  | .reifiedMemberOf b vars _ => vars ++ [b]

/-- `priority::NORMAL`; no built-in constraint overrides the default
`Constraint::priority`. -/
def priorityNormal : Nat := 50

/-- `Constraint::priority()` (the trait default for every built-in). -/
def Constraint.priorityOf : Constraint → Nat := fun _ => priorityNormal

/-- `EqualConstraint::revise` (src/src/solver/constraints/equal.rs). -/
def reviseEqual (a b : Nat) (target : Nat) (sol : Solution) :
    Except Err (Option Solution) := do
  let otherVar := if target = a then b else a
  let targetDomain ← getDom sol target
  let otherDomain ← getDom sol otherVar
  let originalSize := targetDomain.len
  let newDomain := targetDomain.inter otherDomain
  if newDomain.len < originalSize then
    .ok (some (sol.cloneWithDomains (updateD sol.domains target newDomain)))
  else
    .ok none

/-- `NotEqualConstraint::revise` (not_equal.rs): prune the other side's
singleton value from the target. -/
def reviseNotEqual (a b : Nat) (target : Nat) (sol : Solution) :
    Except Err (Option Solution) := do
  let otherVar := if target = a then b else a
  let otherDomain ← getDom sol otherVar
  match otherDomain.singletonVal with
  | none => .ok none
  | some valueToRemove => do
    let targetDomain ← getDom sol target
    let originalSize := targetDomain.len
    let newDomain := targetDomain.retain (fun v => v ≠ valueToRemove)
    if newDomain.len < originalSize then
      .ok (some (sol.cloneWithDomains (updateD sol.domains target newDomain)))
    else
      .ok none

/-- The set of values fixed (singleton) in the variables of the group other
than the target, for `AllDifferentConstraint::revise`. -/
def fixedValues (vars : List Nat) (target : Nat) (sol : Solution) : List SVal :=
  vars.foldl (fun acc v =>
    if v ≠ target then
      match lookupD sol.domains v with
      | some d =>
        match d.singletonVal with
        | some fixed => if fixed ∈ acc then acc else acc ++ [fixed]
        | none => acc
      | none => acc
    else acc) []

/-- `AllDifferentConstraint::revise` (all_different.rs). -/
def reviseAllDifferent (vars : List Nat) (target : Nat) (sol : Solution) :
    Except Err (Option Solution) :=
  let fixed := fixedValues vars target sol
  if fixed.isEmpty then .ok none
  else
    match lookupD sol.domains target with
    | some targetDomain =>
      let newDomain := targetDomain.retain (fun v => !fixed.contains v)
      if newDomain.len < targetDomain.len then
        .ok (some (sol.cloneWithDomains (updateD sol.domains target newDomain)))
      else .ok none
    | none => .ok none

/-- `AbsoluteDifferenceNotEqualConstraint::revise` (abs_diff_not_equal.rs). -/
def reviseAbsDiff (x y : Nat) (c : SVal) (target : Nat) (sol : Solution) :
    Except Err (Option Solution) := do
  let otherVar := if target = x then y else x
  let targetDomain ← getDom sol target
  let otherDomain ← getDom sol otherVar
  match otherDomain.singletonVal with
  | none => .ok none
  | some otherValue => do
    let v1 ← svalAdd otherValue c
    let v2 ← svalSub otherValue c
    let originalSize := targetDomain.len
    let newDomain := targetDomain.retain (fun v => v ≠ v1 && v ≠ v2)
    if newDomain.len < originalSize then
      .ok (some (sol.cloneWithDomains (updateD sol.domains target newDomain)))
    else
      .ok none

/-- Outcome of the min/max accumulation loops of `SumOfConstraint::revise`:
`early` is the source's early `return Ok(None)` on a term domain with no
min/max; `bounds acc` is normal completion with the running sums (`none`
when no term was processed, the accumulators' initial state). -/
inductive SumBounds where
  | early
  | bounds (acc : Option (SVal × SVal))

/-- The accumulation loop of `SumOfConstraint::revise` case 1: running sums
of the minima and maxima of the given term domains.  A missing term domain
is a panic (`unwrap`). -/
def sumOfBounds (sol : Solution) :
    List Nat → Option (SVal × SVal) → Except Err SumBounds
  | [], acc => .ok (.bounds acc)
  | t :: rest, acc => do
    let d ← getDom sol t
    match d.minV, d.maxV with
    | some mn, some mx =>
      match acc with
      | none => sumOfBounds sol rest (some (mn, mx))
      | some (smn, smx) => do
        let smn' ← svalAdd smn mn
        let smx' ← svalAdd smx mx
        sumOfBounds sol rest (some (smn', smx'))
    | _, _ => .ok .early

/-- Same loop for case 2 of `SumOfConstraint::revise`, skipping every
occurrence of the target variable. -/
def sumOfBoundsExcept (sol : Solution) (target : Nat) :
    List Nat → Option (SVal × SVal) → Except Err SumBounds
  | [], acc => .ok (.bounds acc)
  | t :: rest, acc =>
    if t = target then sumOfBoundsExcept sol target rest acc
    else do
      let d ← getDom sol t
      match d.minV, d.maxV with
      | some mn, some mx =>
        match acc with
        | none => sumOfBoundsExcept sol target rest (some (mn, mx))
        | some (smn, smx) => do
          let smn' ← svalAdd smn mn
          let smx' ← svalAdd smx mx
          sumOfBoundsExcept sol target rest (some (smn', smx'))
      | _, _ => .ok .early

/-- `SumOfConstraint::revise` (sum_of.rs): interval reasoning on the sum
variable or on one term.  On the sum, empty `terms` is the source's
`terms.is_empty()` early `Ok(None)`; on a term, absent other-term sums
default the new bounds to the sum variable's own bounds (`map_or`). -/
def reviseSumOf (terms : List Nat) (sum : Nat) (target : Nat) (sol : Solution) :
    Except Err (Option Solution) := do
  if ¬ (terms.contains target) ∧ target ≠ sum then
    .ok none
  else do
    let targetDomain ← getDom sol target
    let originalSize := targetDomain.len
    let newDomain? ←
      if target = sum then do
        match ← sumOfBounds sol terms none with
        | .early => pure none
        | .bounds none => pure none
        | .bounds (some (newMinS, newMaxS)) =>
          pure (some (targetDomain.retain
            (fun v => svalLe newMinS v && svalLe v newMaxS)))
      else do
        let sumDomain ← getDom sol sum
        match sumDomain.minV, sumDomain.maxV with
        | some minS, some maxS => do
          match ← sumOfBoundsExcept sol target terms none with
          | .early => pure none
          | .bounds none =>
            pure (some (targetDomain.retain
              (fun v => svalLe minS v && svalLe v maxS)))
          | .bounds (some (sumMinsOthers, sumMaxsOthers)) => do
            let newMaxT ← svalSub maxS sumMinsOthers
            let newMinT ← svalSub minS sumMaxsOthers
            pure (some (targetDomain.retain
              (fun v => svalLe newMinT v && svalLe v newMaxT)))
        | _, _ => pure none
    match newDomain? with
    | none => .ok none
    | some newDomain =>
      if newDomain.len < originalSize then
        .ok (some (sol.cloneWithDomains (updateD sol.domains target newDomain)))
      else
        .ok none

/-- The scan of `BooleanOrConstraint::revise`: walk the variable list,
collecting the still-possibly-true variables and counting the known-false
ones; `.ok none` stands for the early `return Ok(None)` on the first
definitely-true variable. -/
def borScan (sol : Solution) :
    List Nat → List Nat → Nat → Except Err (Option (List Nat × Nat))
  | [], possibly, kf => .ok (some (possibly, kf))
  | v :: rest, possibly, kf => do
    let d ← getDom sol v
    if d.len = 1 then
      if d.singletonVal = some trueV then .ok none
      else borScan sol rest possibly (kf + 1)
    else borScan sol rest (possibly ++ [v]) kf

/-- `BooleanOrConstraint::revise` (boolean_or.rs).  The target variable is
ignored by the source (`_target_var`). -/
def reviseBooleanOr (vars : List Nat) (_target : Nat) (sol : Solution) :
    Except Err (Option Solution) := do
  match ← borScan sol vars [] 0 with
  | none => .ok none
  | some (possiblyTrue, knownFalse) =>
    match possiblyTrue with
    | [lastHope] =>
      if knownFalse = vars.length - 1 then do
        let domain ← getDom sol lastHope
        let newDomain := domain.retain (fun v => v = trueV)
        if newDomain.len < domain.len then
          .ok (some (sol.cloneWithDomains
            (updateD sol.domains lastHope newDomain)))
        else .ok none
      else .ok none
    | _ => .ok none

/-- `ReifiedEqualConstraint::revise_xy` (reified_equal.rs): target is one of
the data variables, `o` the other. -/
def reviseReifiedEqualXY (b : Nat) (target other : Nat) (sol : Solution) :
    Except Err (Option Solution) := do
  let bDomain ← getDom sol b
  let targetDomain ← getDom sol target
  let otherDomain ← getDom sol other
  let bIsTrue := bDomain.len = 1 ∧ bDomain.singletonVal = some trueV
  let bIsFalse := bDomain.len = 1 ∧ bDomain.singletonVal = some falseV
  let originalSize := targetDomain.len
  let newTargetDomain :=
    if bIsTrue then targetDomain.inter otherDomain
    else if bIsFalse ∧ otherDomain.len = 1 then
      match otherDomain.singletonVal with
      | some otherVal => targetDomain.retain (fun v => v ≠ otherVal)
      | none => targetDomain
    else targetDomain
  if newTargetDomain.len < originalSize then
    .ok (some (sol.cloneWithDomains (updateD sol.domains target newTargetDomain)))
  else .ok none

/-- `ReifiedEqualConstraint::revise_b` (reified_equal.rs): target is the
boolean variable. -/
def reviseReifiedEqualB (b x y : Nat) (sol : Solution) :
    Except Err (Option Solution) := do
  let bDomain ← getDom sol b
  let xDomain ← getDom sol x
  let yDomain ← getDom sol y
  let disjointCase : Option Solution :=
    if (xDomain.inter yDomain).len = 0 then
      let newB := bDomain.retain (fun v => v = falseV)
      if newB.len < bDomain.len then
        some (sol.cloneWithDomains (updateD sol.domains b newB))
      else none
    else none
  match disjointCase with
  | some s => .ok (some s)
  | none =>
    if xDomain.len = 1 ∧ xDomain.singletonVal = yDomain.singletonVal then
      let newB := bDomain.retain (fun v => v = trueV)
      if newB.len < bDomain.len then
        .ok (some (sol.cloneWithDomains (updateD sol.domains b newB)))
      else .ok none
    else .ok none

/-- The input scan of `ReifiedOrConstraint::revise`: returns
`(any_input_is_true, all_inputs_are_false)`, breaking on the first
definitely-true input. -/
def rorScan (sol : Solution) : List Nat → Except Err (Bool × Bool)
  | [] => .ok (false, true)
  | v :: rest => do
    let d ← getDom sol v
    if d.len = 1 then
      if d.singletonVal = some trueV then .ok (true, false)
      else rorScan sol rest
    else do
      let (a, _) ← rorScan sol rest
      .ok (a, false)

/-- The output-to-inputs loop of `ReifiedOrConstraint::revise`: force every
input to false, reading from the evolving domain map. -/
def pruneAllToFalse : List Nat → Domains → Except Err (Domains × Bool)
  | [], ds => .ok (ds, false)
  | v :: rest, ds =>
    match lookupD ds v with
    | none => .error .panicked
    | some d =>
      let nd := d.retain (fun x => x = falseV)
      if nd.len < d.len then do
        let (ds', _) ← pruneAllToFalse rest (updateD ds v nd)
        .ok (ds', true)
      else pruneAllToFalse rest ds

/-- `ReifiedOrConstraint::revise` (reified_or.rs).  The target variable is
ignored by the source; the revision may change the output and several
inputs at once. -/
def reviseReifiedOr (bOut : Nat) (bIn : List Nat) (_target : Nat)
    (sol : Solution) : Except Err (Option Solution) := do
  let bOutDomain ← getDom sol bOut
  let (anyInputTrue, allInputsFalse) ← rorScan sol bIn
  let step1 : Domains × Bool :=
    if anyInputTrue then
      let nb := bOutDomain.retain (fun v => v = trueV)
      if nb.len < bOutDomain.len then (updateD sol.domains bOut nb, true)
      else (sol.domains, false)
    else if allInputsFalse then
      let nb := bOutDomain.retain (fun v => v = falseV)
      if nb.len < bOutDomain.len then (updateD sol.domains bOut nb, true)
      else (sol.domains, false)
    else (sol.domains, false)
  let (newDomains, changed2) ←
    if bOutDomain.len = 1 ∧ bOutDomain.singletonVal = some falseV then
      pruneAllToFalse bIn step1.1
    else .ok (step1.1, false)
  if step1.2 || changed2 then
    .ok (some (sol.cloneWithDomains newDomains))
  else .ok none

/-- The column projection `data_set.iter().map(|row| row[i])` of
`ReifiedMemberOfConstraint::revise`; indexing past a row's end panics. -/
def projCol : List (List SVal) → Nat → Except Err (List SVal)
  | [], _ => .ok []
  | row :: rest, i =>
    match row.get? i with
    | some v => do
      let vs ← projCol rest i
      .ok (v :: vs)
    | none => .error .panicked

/-- The B-to-vars loop of `ReifiedMemberOfConstraint::revise`, restricting
each variable (at its column index) to the projection of the table, reading
from the evolving domain map. -/
def memberPruneVars (table : List (List SVal)) :
    List Nat → Nat → Domains → Except Err (Domains × Bool)
  | [], _, ds => .ok (ds, false)
  | v :: rest, i, ds =>
    match lookupD ds v with
    | none => .error .panicked
    | some d => do
      let proj ← projCol table i
      let nd := d.retain (fun val => proj.contains val)
      if nd.len < d.len then do
        let (ds', _) ← memberPruneVars table rest (i + 1) (updateD ds v nd)
        .ok (ds', true)
      else memberPruneVars table rest (i + 1) ds

/-- The per-variable domains of the constrained tuple, from the original
solution (vars-to-B direction reads `solution.domains`). -/
def collectDoms (sol : Solution) : List Nat → Except Err (List Dom)
  | [] => .ok []
  | v :: rest => do
    let d ← getDom sol v
    let ds ← collectDoms sol rest
    .ok (d :: ds)

/-- `ReifiedMemberOfConstraint::revise` (reified_member_of.rs).  The target
variable is ignored by the source. -/
def reviseMemberOf (b : Nat) (vars : List Nat) (dataSet : List (List SVal))
    (_target : Nat) (sol : Solution) : Except Err (Option Solution) := do
  let bDomain ← getDom sol b
  let (nd1, ch1) ←
    if bDomain.len = 1 ∧ bDomain.singletonVal = some trueV then
      memberPruneVars dataSet vars 0 sol.domains
    else .ok (sol.domains, false)
  let doms ← collectDoms sol vars
  let possible := dataSet.any (fun row =>
    (row.zip doms).all (fun vd => vd.2.containsV vd.1))
  let step2 : Domains × Bool :=
    if !possible then
      let nb := bDomain.retain (fun v => v = falseV)
      if nb.len < bDomain.len then (updateD nd1 b nb, true) else (nd1, false)
    else (nd1, false)
  if ch1 || step2.2 then
    .ok (some (sol.cloneWithDomains step2.1))
  else .ok none

/-- `Constraint::revise` dispatch for the built-in catalogue.  Only
`ReifiedEqualConstraint` rejects a target outside its variable list (with
`SolverError::Custom`). -/
def Constraint.revise : Constraint → Nat → Solution → Except Err (Option Solution)
  | .equal a b, t, sol => reviseEqual a b t sol
  | .notEqual a b, t, sol => reviseNotEqual a b t sol
  | .allDifferent vars, t, sol => reviseAllDifferent vars t sol
  | .absDiffNotEqual x y c, t, sol => reviseAbsDiff x y c t sol
  | .sumOf terms sum, t, sol => reviseSumOf terms sum t sol
  | .booleanOr vars, t, sol => reviseBooleanOr vars t sol
  | .reifiedEqual b x y, t, sol =>
    if t = b then reviseReifiedEqualB b x y sol
    else if t = x then reviseReifiedEqualXY b x y sol
    else if t = y then reviseReifiedEqualXY b y x sol
    else .error .custom
  | .reifiedOr bOut bIn, t, sol => reviseReifiedOr bOut bIn t sol
  | .reifiedMemberOf b vars table, t, sol => reviseMemberOf b vars table t sol

/-- A queued arc (src/src/solver/work_list.rs): the pending revision of one
variable by one constraint, with the priority recorded at push time. -/
structure WorkItem where
  priority : Nat
  variableId : Nat
  constraintId : Nat
deriving DecidableEq, Repr

/-- The derived ordering on `WorkItem` compares priorities only. -/
def itemLe (a b : WorkItem) : Bool := a.priority ≤ b.priority

/-- Exchange the entries at two indices (identity when out of range; every
use below is in range).  `std::collections::BinaryHeap`'s hole-based sift
loops are extensionally these swap chains. -/
def swapAt (l : List WorkItem) (i j : Nat) : List WorkItem :=
  match l.get? i, l.get? j with
  | some a, some b => (l.set i b).set j a
  | _, _ => l

/-- `BinaryHeap::sift_up` from position `pos` towards the root: bubble the
element up while it is strictly greater than its parent (equal priorities
never move, so the heap is stable at the root for equal items).  The fuel
makes the recursion structural; the position strictly decreases, so the
starting position is always enough fuel. -/
def siftUpGo (data : List WorkItem) (pos : Nat) : Nat → List WorkItem
  | 0 => data
  | fuel + 1 =>
    if pos = 0 then data
    else
      let parent := (pos - 1) / 2
      match data.get? pos, data.get? parent with
      | some e, some p =>
        if itemLe e p then data
        else siftUpGo (swapAt data pos parent) parent fuel
      | _, _ => data

/-- `BinaryHeap::sift_up` with its always-sufficient fuel. -/
def siftUp (data : List WorkItem) (pos : Nat) : List WorkItem :=
  siftUpGo data pos pos

/-- `BinaryHeap::push`: append, then sift up from the last position. -/
def heapPush (data : List WorkItem) (item : WorkItem) : List WorkItem :=
  siftUp (data ++ [item]) data.length

/-- The descend-to-a-leaf phase of `BinaryHeap::sift_down_to_bottom`: the
hole walks to the bottom, at each level towards the greater child (the
right child when the two compare equal).  Fuel bounds the walk; the
position strictly increases, so `data.length` steps always suffice. -/
def siftDownLoop (data : List WorkItem) (pos : Nat) : Nat → List WorkItem × Nat
  | 0 => (data, pos)
  | fuel + 1 =>
    let e := data.length
    let child := 2 * pos + 1
    if child ≤ e - 2 then
      let child :=
        match data.get? child, data.get? (child + 1) with
        | some c1, some c2 => if itemLe c1 c2 then child + 1 else child
        | _, _ => child
      siftDownLoop (swapAt data pos child) child fuel
    else if child = e - 1 then (swapAt data pos child, child)
    else (data, pos)

/-- `BinaryHeap::sift_down_to_bottom(0)`: walk the hole to the bottom, then
sift the displaced element back up. -/
def siftDownToBottom (data : List WorkItem) : List WorkItem :=
  let step := siftDownLoop data 0 data.length
  siftUp step.1 step.2

/-- `BinaryHeap::pop`: remove the last element, swap it with the root
(which is returned) and restore the heap shape. -/
def heapPop (data : List WorkItem) : Option (WorkItem × List WorkItem) :=
  match data.getLast? with
  | none => none
  | some last =>
    match data.dropLast.head? with
    | none => some (last, [])
    | some root => some (root, siftDownToBottom (data.dropLast.set 0 last))

/-- `WorkList` (work_list.rs): the priority heap plus the duplicate
suppression set of `(variable, constraint)` pairs. -/
structure WorkList where
  queue : List WorkItem
  members : List (Nat × Nat)
deriving DecidableEq, Repr

/-- `WorkList::new`. -/
def WorkList.new : WorkList := ⟨[], []⟩

/-- `WorkList::push_back`: enqueue unless the pair is already queued. -/
def WorkList.pushBack (wl : WorkList) (priority variableId constraintId : Nat) :
    WorkList :=
  if wl.members.contains (variableId, constraintId) then wl
  else
    ⟨heapPush wl.queue ⟨priority, variableId, constraintId⟩,
     (variableId, constraintId) :: wl.members⟩

/-- `WorkList::pop_front`: pop from the heap and unregister the pair. -/
def WorkList.popFront (wl : WorkList) : Option ((Nat × Nat) × WorkList) :=
  match heapPop wl.queue with
  | none => none
  | some (item, q) =>
    some ((item.variableId, item.constraintId),
          ⟨q, wl.members.erase (item.variableId, item.constraintId)⟩)

/-- `PerConstraintStats` (engine.rs): counters for one constraint.  Time is
wall-clock in the source; the embedding records the accumulation structure
with every elapsed interval modelled as zero. -/
structure PerConstraintStats where
  revisions : Nat
  prunings : Nat
  timeSpentMicros : Nat
deriving DecidableEq, Repr

/-- `PerConstraintStats::default()`. -/
def PerConstraintStats.zero : PerConstraintStats := ⟨0, 0, 0⟩

/-- `SearchStats` (engine.rs). -/
structure SearchStats where
  nodesVisited : Nat
  backtracks : Nat
  constraintStats : List (Nat × PerConstraintStats)
deriving DecidableEq, Repr

/-- `SearchStats::default()`. -/
def SearchStats.empty : SearchStats := ⟨0, 0, []⟩

/-- First binding for a constraint id in a stats map. -/
def lookupPCS : List (Nat × PerConstraintStats) → Nat → Option PerConstraintStats
  | [], _ => none
  | (k, s) :: rest, id => if k = id then some s else lookupPCS rest id

/-- The `entry(id).or_default()` view: a missing entry reads as zero. -/
def statsFor (st : SearchStats) (id : Nat) : PerConstraintStats :=
  (lookupPCS st.constraintStats id).getD .zero

/-- `entry(id).or_default()` followed by a mutation: update the binding in
place, creating it from the default when absent. -/
def bumpPCS : List (Nat × PerConstraintStats) → Nat →
    (PerConstraintStats → PerConstraintStats) → List (Nat × PerConstraintStats)
  | [], id, f => [(id, f .zero)]
  | (k, s) :: rest, id, f =>
    if k = id then (k, f s) :: rest else (k, s) :: bumpPCS rest id f

/-- The accumulation loop of `RestartingSearch::solve`: add one attempt's
stats into the cumulative stats, entry by entry. -/
def accumulateStats (cum st : SearchStats) : SearchStats :=
  { nodesVisited := cum.nodesVisited + st.nodesVisited
    backtracks := cum.backtracks + st.backtracks
    constraintStats := st.constraintStats.foldl (fun acc kv =>
      bumpPCS acc kv.1 (fun s =>
        ⟨s.revisions + kv.2.revisions, s.prunings + kv.2.prunings,
         s.timeSpentMicros + kv.2.timeSpentMicros⟩)) cum.constraintStats }

/-- The dependency map of `SearchStrategy::propagate`: the indices (in
ascending order) of the constraints that mention a variable. -/
def depConstraints (cs : List Constraint) (v : Nat) : List Nat :=
  (cs.enum.filter (fun ic => ic.2.variablesOf.contains v)).map Prod.fst

/-- Seeding of the worklist: for every constraint and every one of its
variables, push the arc at the constraint's priority. -/
def seedWorklist (cs : List Constraint) : WorkList :=
  cs.enum.foldl (fun wl ic =>
    ic.2.variablesOf.foldl
      (fun w v => w.pushBack ic.2.priorityOf v ic.1) wl) WorkList.new

/-- The re-enqueue step after a pruning of `targetVar`: for every constraint
mentioning it, push every *other* variable of that constraint. -/
def enqueueNeighbors (cs : List Constraint) (targetVar : Nat) (wl : WorkList) :
    WorkList :=
  (depConstraints cs targetVar).foldl (fun w depCid =>
    match cs.get? depCid with
    | some depC =>
      depC.variablesOf.foldl (fun w2 nv =>
        if nv ≠ targetVar then w2.pushBack depC.priorityOf nv depCid else w2) w
    | none => w) wl

/-- The AC-3 loop of `SearchStrategy::propagate` (strategy.rs, lines
84-116).  Fuel only guards the embedding's recursion; the source loop
terminates on every input reachable here. -/
def propagateLoop (cs : List Constraint) :
    Nat → WorkList → Solution → SearchStats →
    Except Err (Option Solution × SearchStats)
  | 0, _, _, _ => .error .fuelExhausted
  | fuel + 1, wl, solution, stats =>
    match wl.popFront with
    | none => .ok (some solution, stats)
    | some ((targetVar, cid), wl') =>
      match cs.get? cid with
      | none => .error .panicked
      | some constraint => do
        let cs1 := bumpPCS stats.constraintStats cid
          (fun s => { s with revisions := s.revisions + 1 })
        let stats1 : SearchStats := { stats with constraintStats := cs1 }
        match ← constraint.revise targetVar solution with
        | some newSolution =>
          match lookupD solution.domains targetVar,
                lookupD newSolution.domains targetVar with
          | some oldD, some newD =>
            if newD.len = 0 then .ok (none, stats1)
            else if newD.len < oldD.len then
              let cs2 := bumpPCS stats1.constraintStats cid
                (fun s => { s with prunings := s.prunings + 1 })
              let stats2 : SearchStats := { stats1 with constraintStats := cs2 }
              let cs3 := bumpPCS stats2.constraintStats cid
                (fun s => { s with timeSpentMicros := s.timeSpentMicros + 0 })
              let stats3 : SearchStats := { stats2 with constraintStats := cs3 }
              propagateLoop cs fuel (enqueueNeighbors cs targetVar wl')
                newSolution stats3
            else
              let cs3 := bumpPCS stats1.constraintStats cid
                (fun s => { s with timeSpentMicros := s.timeSpentMicros + 0 })
              let stats3 : SearchStats := { stats1 with constraintStats := cs3 }
              propagateLoop cs fuel wl' solution stats3
          | _, _ => .error .panicked
        | none =>
          let cs2 := bumpPCS stats1.constraintStats cid
            (fun s => { s with timeSpentMicros := s.timeSpentMicros + 0 })
          let stats2 : SearchStats := { stats1 with constraintStats := cs2 }
          propagateLoop cs fuel wl' solution stats2

/-- `SearchStrategy::propagate`: seed the worklist and run the loop. -/
def propagate (cs : List Constraint) (initial : Solution) (stats : SearchStats)
    (fuel : Nat) : Except Err (Option Solution × SearchStats) :=
  propagateLoop cs fuel (seedWorklist cs) initial stats

/-- `SelectFirstHeuristic::select_variable` (heuristics/variable.rs): the
smallest variable id whose domain has more than one value. -/
def selectFirst (sol : Solution) : Option Nat :=
  (sol.domains.filter (fun kv => kv.2.len > 1)).foldl
    (fun acc kv =>
      match acc with
      | none => some kv.1
      | some m => some (Nat.min m kv.1)) none

/-- Insert a value into an ascending list (by the `StandardValue` order). -/
def insSorted (v : SVal) : List SVal → List SVal
  | [] => [v]
  | x :: xs => if svalLe v x then v :: x :: xs else x :: insSorted v xs

/-- `Vec::sort` on values, ascending by the derived `StandardValue` order;
used by `DeterministicIdentityValueHeuristic::order_values`. -/
def sortSVal (l : List SVal) : List SVal := l.foldr insSorted []

/-- The `for value in order_values` loop of `BacktrackingSearch::search`
(strategy.rs, lines 172-188): guess each value in turn, propagate, continue
into `searchCont` (the recursive search one level deeper), counting a
backtrack whenever a guess fails. -/
def tryValues (cs : List Constraint) (pfuel : Nat)
    (searchCont : Solution → SearchStats → Except Err (Option Solution × SearchStats))
    (varToBranch : Nat) (solution : Solution) :
    List SVal → SearchStats → Except Err (Option Solution × SearchStats)
  | [], stats => .ok (none, stats)
  | value :: rest, stats => do
    let guessSolution :=
      solution.cloneWithDomains (updateD solution.domains varToBranch [value])
    let (prop, stats1) ← propagate cs guessSolution stats pfuel
    match prop with
    | some propagated => do
      let (found, stats2) ← searchCont propagated stats1
      match found with
      | some s => .ok (some s, stats2)
      | none =>
        let stats3 : SearchStats :=
          { stats2 with backtracks := stats2.backtracks + 1 }
        tryValues cs pfuel searchCont varToBranch solution rest stats3
    | none =>
      let stats2 : SearchStats :=
        { stats1 with backtracks := stats1.backtracks + 1 }
      tryValues cs pfuel searchCont varToBranch solution rest stats2

/-- `BacktrackingSearch::search` (strategy.rs, lines 156-191), with
`SelectFirstHeuristic` and `DeterministicIdentityValueHeuristic`.  `fuel`
bounds the recursion depth and `pfuel` each propagation. -/
def searchAux (cs : List Constraint) (pfuel : Nat) :
    Nat → Solution → SearchStats → Except Err (Option Solution × SearchStats)
  | 0, _, _ => .error .fuelExhausted
  | fuel + 1, solution, stats =>
    let stats1 : SearchStats :=
      { stats with nodesVisited := stats.nodesVisited + 1 }
    if solution.isComplete then .ok (some solution, stats1)
    else
      match selectFirst solution with
      | none => .ok (some solution, stats1)
      | some varToBranch =>
        match lookupD solution.domains varToBranch with
        | none => .error .panicked
        | some d =>
          tryValues cs pfuel (fun s st => searchAux cs pfuel fuel s st)
            varToBranch solution (sortSVal d) stats1

/-- `BacktrackingSearch::solve` (strategy.rs, lines 194-212). -/
def backtrackingSolve (cs : List Constraint) (initial : Solution)
    (pfuel sfuel : Nat) : Except Err (Option Solution × SearchStats) := do
  let (prop, stats) ← propagate cs initial SearchStats.empty pfuel
  match prop with
  | none => .ok (none, stats)
  | some solution =>
    if solution.isComplete then .ok (some solution, stats)
    else searchAux cs pfuel sfuel solution stats

/-- The shape of an embedded search strategy: constraints and the solution
it is invoked on to a result.  The extra `Nat` is the attempt index,
modelling the hidden state (e.g. the RNG of a random heuristic) that lets
distinct attempts of `RestartingSearch` differ. -/
abbrev Strategy :=
  List Constraint → Solution → Nat → Except Err (Option Solution × SearchStats)

/-- The loop of `RestartingSearch::solve` (strategy.rs, lines 248-275):
run the inner strategy on the original initial solution, accumulate its
stats, return on success or when the policy declines to restart. -/
def restartingLoop (inner : Strategy) (policy : SearchStats → Bool)
    (cs : List Constraint) (initial : Solution) :
    Nat → Nat → SearchStats → Except Err (Option Solution × SearchStats)
  | 0, _, _ => .error .fuelExhausted
  | fuel + 1, attempt, cum => do
    let (solution, searchStats) ← inner cs initial attempt
    let cum' := accumulateStats cum searchStats
    if solution.isSome || !policy searchStats then .ok (solution, cum')
    else restartingLoop inner policy cs initial fuel (attempt + 1) cum'

/-- `RestartingSearch::solve`. -/
def restartingSolve (inner : Strategy) (policy : SearchStats → Bool)
    (cs : List Constraint) (initial : Solution) (fuel : Nat) :
    Except Err (Option Solution × SearchStats) :=
  restartingLoop inner policy cs initial fuel 0 SearchStats.empty

/-- `RestartAfterNBacktracks::should_restart` (heuristics/restart.rs):
`stats.backtracks >= self.max_backtracks`. -/
def shouldRestartAfterNBacktracks (maxBacktracks : Nat) (stats : SearchStats) :
    Bool :=
  stats.backtracks ≥ maxBacktracks

/-- Modelled from the spec: the `SolverEngine` façade (“a thin wrapper
owning one strategy and delegating `solve` to it; the user chooses the
strategy at construction”).  The `engine.rs` in this snapshot is a stale
artifact that no longer type-checks against the rest of the crate (it calls
the two-argument `WorkList::push_back` and builds `Solution` without
`variable_metadata`), while every caller — the crate root documentation and
all examples — constructs `SolverEngine::new(strategy)`; the compiling
façade itself is missing from the sources, so it is modelled from the
spec.  A strategy is a solve function (attempt-indexed, see `Strategy`). -/
structure SolverEngine where
  strategy : Strategy

/-- Modelled from the spec: `SolverEngine::new(strategy)`. -/
def SolverEngine.new (s : Strategy) : SolverEngine := ⟨s⟩

/-- Modelled from the spec: `SolverEngine::solve` delegates to the owned
strategy, adding nothing. -/
def SolverEngine.solve (e : SolverEngine) (cs : List Constraint)
    (initial : Solution) (attempt : Nat) :
    Except Err (Option Solution × SearchStats) :=
  e.strategy cs initial attempt

/-! Concrete problem instances used by the counterexamples and witnesses. -/

/-- A problem with one `ReifiedOr(b_out = 2, inputs = [0, 1])` constraint. -/
def badCs : List Constraint := [.reifiedOr 2 [0, 1]]

/-- Initial state for `badCs`: `D(0) = {true, false}`, `D(1) = {true}`,
`D(2) = {false}` — all domains non-empty. -/
def badInit : Solution := ⟨[(0, [trueV, falseV]), (1, [trueV]), (2, [falseV])], [], 0⟩

/-- What the engine reaches on `badCs`/`badInit`: variable 0 pruned to
`{false}`, variables 1 and 2 wiped out — yet adopted, because only the
target variable's domain size is checked. -/
def badEnd : Solution := ⟨[(0, [falseV]), (1, []), (2, [])], [], 0⟩

/-- `Equal(0, 1)` then `ReifiedOr(b_out = 3, inputs = [2, 1])`: the
instance on which one propagation pass stops short of the fixed point. -/
def idemCs : List Constraint := [.equal 0 1, .reifiedOr 3 [2, 1]]

/-- Initial state for `idemCs`: three full boolean domains and `D(3) =
{false}`. -/
def idemInit : Solution :=
  ⟨[(0, [trueV, falseV]), (1, [trueV, falseV]), (2, [trueV, falseV]),
    (3, [falseV])], [], 0⟩

/-- Result of the first propagation on `idemCs`/`idemInit`: variable 1 was
pruned to `{false}` collaterally (target was 2), after the arc `(0, Equal)`
had already been processed, so `Equal(0,1)` can still prune variable 0. -/
def idemMid : Solution :=
  ⟨[(0, [trueV, falseV]), (1, [falseV]), (2, [falseV]), (3, [falseV])], [], 0⟩

/-- Result of the second propagation: variable 0 now pruned to `{false}`. -/
def idemEnd : Solution :=
  ⟨[(0, [falseV]), (1, [falseV]), (2, [falseV]), (3, [falseV])], [], 0⟩

/-- A solution giving domains to the variables of `SumOf([0,1], 2)` and
`ReifiedEqual(0,1,2)` and also to the foreign target variable 5. -/
def foreignSol : Solution :=
  ⟨[(0, [.int 1]), (1, [.int 2]), (2, [.int 3]), (5, [.int 9])], [], 0⟩

/-- `BooleanOr([0,1,2])` over `D(0) = {false}`, `D(1) = {false}`,
`D(2) = {true, false}`: revising target 0 prunes variable 2. -/
def borSol : Solution := ⟨[(0, [falseV]), (1, [falseV]), (2, [trueV, falseV])], [], 0⟩

/-- The `(variable, constraint)` pairs currently present in the heap. -/
def pairsOf (q : List WorkItem) : List (Nat × Nat) :=
  q.map (fun it => (it.variableId, it.constraintId))

/-- The worklist states reachable by the public `WorkList` operations. -/
inductive Reachable : WorkList → Prop where
  | new : Reachable WorkList.new
  | push (wl : WorkList) (p v c : Nat) : Reachable wl →
      Reachable (wl.pushBack p v c)
  | pop (wl wl' : WorkList) (pr : Nat × Nat) : Reachable wl →
      wl.popFront = some (pr, wl') → Reachable wl'

/-- A small reachable worklist: `new` followed by one push. -/
def c6wl : WorkList := WorkList.new.pushBack 50 0 0

/-- Componentwise addition of per-constraint counters. -/
def addPCS (a b : PerConstraintStats) : PerConstraintStats :=
  ⟨a.revisions + b.revisions, a.prunings + b.prunings,
   a.timeSpentMicros + b.timeSpentMicros⟩

/-- Componentwise sum of a list of per-constraint counters. -/
def sumPCS (l : List PerConstraintStats) : PerConstraintStats :=
  l.foldr addPCS .zero

/-- The type invariant of `SearchStats.constraintStats` as an association
list: a `HashMap` binds each constraint id at most once. -/
def WFStats (st : SearchStats) : Prop :=
  (st.constraintStats.map Prod.fst).Nodup

/-- Per-attempt stats of the witness strategy for the restart claim. -/
def c7stats0 : SearchStats := ⟨1, 2, [(0, ⟨3, 1, 5⟩)]⟩

/-- Per-attempt stats of the witness strategy's second attempt. -/
def c7stats1 : SearchStats := ⟨4, 8, [(0, ⟨6, 2, 7⟩), (1, ⟨1, 0, 0⟩)]⟩

/-- The solution found by the witness strategy's second attempt. -/
def c7sol : Solution := ⟨[(0, [trueV])], [], 0⟩

/-- An initial solution for the restart witness. -/
def c7init : Solution := ⟨[(0, [trueV, falseV])], [], 0⟩

/-- A two-attempt inner strategy: the first attempt fails with `c7stats0`,
the second finds `c7sol` with `c7stats1`. -/
def c7inner : Strategy := fun _ _ i =>
  if i = 0 then .ok (none, c7stats0) else .ok (some c7sol, c7stats1)

/-- A restart policy for the witness: restart after one backtrack. -/
def c7policy : SearchStats → Bool := fun st => st.backtracks ≥ 1

/-- The cumulative stats of the two witness attempts. -/
def c7cum : SearchStats := ⟨5, 10, [(0, ⟨9, 3, 12⟩), (1, ⟨1, 0, 0⟩)]⟩

/-! ### Frame relations and witness instances for the C2, C9 and C10 developments -/

/-- What a successful pruning revision does to a solution: metadata, the
semantics handle and the key set are unchanged, domains outside `vars` are
untouched, every domain shrinks to a sublist of its old value, and at
least one variable of `vars` shrinks strictly. -/
def reviseFrameProp (vars : List Nat) (sol new : Solution) : Prop :=
  new.metadata = sol.metadata ∧
  new.semanticsId = sol.semanticsId ∧
  keysD new.domains = keysD sol.domains ∧
  (∀ v, v ∉ vars → lookupD new.domains v = lookupD sol.domains v) ∧
  (∀ v a b, lookupD sol.domains v = some a → lookupD new.domains v = some b →
    b.Sublist a) ∧
  (∃ v ∈ vars, ∃ a b, lookupD sol.domains v = some a ∧
    lookupD new.domains v = some b ∧ b.length < a.length)

/-- The frame/monotonicity relation between two domain maps: keys are
unchanged, entries outside `vs` are untouched, every entry shrank to a
sublist of its old value. -/
def DomsRel (vs : List Nat) (d0 d1 : Domains) : Prop :=
  keysD d1 = keysD d0 ∧
  (∀ v, v ∉ vs → lookupD d1 v = lookupD d0 v) ∧
  (∀ v a b, lookupD d0 v = some a → lookupD d1 v = some b → b.Sublist a)

/-- Equality of the solution shape: same domain key set, same variable
metadata, same shared semantics handle. -/
def shapeEq (a b : Solution) : Prop :=
  keysD a.domains = keysD b.domains ∧ a.metadata = b.metadata ∧
  a.semanticsId = b.semanticsId

/-- A queued arc is valid: its constraint id resolves in the constraint
list and its variable is one of that constraint's variables. -/
def arcValid (cs : List Constraint) (it : WorkItem) : Prop :=
  ∃ c, cs.get? it.constraintId = some c ∧ it.variableId ∈ c.variablesOf

/-- A two-variable instance with `D(0) = {1, 2}` and `D(1) = {1}`. -/
def c2wSol : Solution := ⟨[(0, [.int 1, .int 2]), (1, [.int 1])], [], 0⟩

/-- The result of revising `Equal(0, 1)` at target `0` on `c2wSol`. -/
def c2wNew : Solution := ⟨[(0, [.int 1]), (1, [.int 1])], [], 0⟩

/-- A fully assigned instance, a revision fixed point of `Equal(0, 1)`. -/
def c9wSol : Solution := ⟨[(0, [.int 5]), (1, [.int 5])], [], 0⟩

/-! ## Theorems -/

/-! ### Association-list and domain lemmas -/

theorem lookupD_updateD_self (l : Domains) (k : Nat) (d : Dom) :
    lookupD (updateD l k d) k = some d := by
  induction l with
  | nil => simp [updateD, lookupD]
  | cons kd rest ih =>
    by_cases h : kd.1 = k
    · simp [updateD, h, lookupD]
    · simp [updateD, h, lookupD, ih]

theorem lookupD_updateD_ne (l : Domains) (k k' : Nat) (d : Dom)
    (h : k' ≠ k) : lookupD (updateD l k d) k' = lookupD l k' := by
  induction l with
  | nil =>
    simp only [updateD, lookupD]
    rw [if_neg (fun hh => h hh.symm)]
  | cons kd rest ih =>
    by_cases hk : kd.1 = k
    · subst hk
      simp only [updateD, if_pos rfl, lookupD]
      rw [if_neg (fun hh => h hh.symm), if_neg (fun hh => h hh.symm)]
    · simp only [updateD, if_neg hk, lookupD]
      by_cases hk' : kd.1 = k'
      · simp [hk']
      · simp [hk', ih]

theorem keysD_updateD_of_mem (l : Domains) (k : Nat) (d d0 : Dom)
    (h : lookupD l k = some d0) : keysD (updateD l k d) = keysD l := by
  induction l with
  | nil => simp [lookupD] at h
  | cons kd rest ih =>
    by_cases hk : kd.1 = k
    · simp [updateD, hk, keysD]
    · simp only [lookupD, if_neg hk] at h
      simp only [updateD, if_neg hk, keysD, List.map_cons, List.cons.injEq,
        true_and]
      exact ih h

theorem lookupD_isSome_of_mem_keys (l : Domains) (k : Nat)
    (h : k ∈ keysD l) : ∃ d, lookupD l k = some d := by
  induction l with
  | nil => simp [keysD] at h
  | cons kd rest ih =>
    by_cases hk : kd.1 = k
    · exact ⟨kd.2, by simp [lookupD, hk]⟩
    · simp only [keysD, List.map_cons, List.mem_cons] at h
      rcases h with h | h
      · exact absurd h.symm hk
      · simpa [lookupD, hk] using ih h

theorem retain_sublist (d : Dom) (p : SVal → Bool) : (d.retain p).Sublist d :=
  List.filter_sublist d

theorem inter_sublist (d o : Dom) : (d.inter o).Sublist d :=
  List.filter_sublist d

/-! ### C8: restart-policy threshold -/

/-- C8 counterexample: with `max_backtracks = 0` and a fresh stats value
(`backtracks = 0`), `RestartAfterNBacktracks::should_restart` returns
`true`, while the claim (`backtracks > N`) demands `false`: the policy
fires at exactly `N` backtracks, not only beyond `N`. -/
theorem c8_restart_at_exactly_n_backtracks :
    shouldRestartAfterNBacktracks 0 SearchStats.empty = true ∧
    ¬ SearchStats.empty.backtracks > 0 := by
  constructor
  · rfl
  · decide

/-- C8 amended: `RestartAfterNBacktracks { max_backtracks := N }` decides
to restart exactly when the most recent attempt's backtracks counter is
greater than **or equal to** `N` (the source comparison is `>=`, not `>`). -/
theorem c8_should_restart_iff_ge (n : Nat) (s : SearchStats) :
    shouldRestartAfterNBacktracks n s = true ↔ s.backtracks ≥ n := by
  simp [shouldRestartAfterNBacktracks]

/-! ### C5: engine façade delegation -/

/-- C5: `SolverEngine::solve` returns exactly the result of the strategy
chosen at construction, applied to the same constraints and initial
solution — the engine adds no behaviour of its own.  (The façade is
modelled from the spec; see `SolverEngine`.) -/
theorem c5_engine_delegates_to_strategy (strat : Strategy)
    (cs : List Constraint) (initial : Solution) (attempt : Nat) :
    (SolverEngine.new strat).solve cs initial attempt = strat cs initial attempt :=
  rfl

/-! ### C4: revising a foreign target -/

/-- C4 counterexample: `SumOfConstraint([0,1], sum = 2)` revised at the
foreign target 5 — not in its variable list, while all its variables (and
even 5) have domains — returns `Ok(None)`, not an `Err` as the claim
states. -/
theorem c4_sumof_foreign_target_ok_none :
    (Constraint.sumOf [0, 1] 2).variablesOf.contains 5 = false ∧
    ((Constraint.sumOf [0, 1] 2).variablesOf.all
      (fun v => (lookupD foreignSol.domains v).isSome)) = true ∧
    Constraint.revise (.sumOf [0, 1] 2) 5 foreignSol = .ok none := by
  refine ⟨rfl, rfl, rfl⟩

/-- C4 amended: of the built-in constraints, only `ReifiedEqualConstraint`
rejects a target outside its variable list with an `Err`
(`SolverError::Custom`); `SumOfConstraint` returns `Ok(None)` for such a
target. -/
theorem c4_foreign_target_amended (b x y : Nat) (terms : List Nat)
    (sum : Nat) (t : Nat) (sol : Solution)
    (hb : t ≠ b) (hx : t ≠ x) (hy : t ≠ y)
    (hterms : terms.contains t = false) (hsum : t ≠ sum) :
    Constraint.revise (.reifiedEqual b x y) t sol = .error .custom ∧
    Constraint.revise (.sumOf terms sum) t sol = .ok none := by
  constructor
  · simp [Constraint.revise, hb, hx, hy]
  · have hmem : t ∉ terms := by simpa using hterms
    simp [Constraint.revise, reviseSumOf, hmem, hsum]

/-- Witness for `c4_foreign_target_amended` at `ReifiedEqual(0,1,2)` and
`SumOf([0,1], 2)` with target 5 on `foreignSol`. -/
theorem c4_foreign_target_amended_witness :
    Constraint.revise (.reifiedEqual 0 1 2) 5 foreignSol = .error .custom ∧
    Constraint.revise (.sumOf [0, 1] 2) 5 foreignSol = .ok none :=
  c4_foreign_target_amended 0 1 2 [0, 1] 2 5 foreignSol
    (by decide) (by decide) (by decide) (by decide) (by decide)

/-! ### C1 and C3: collateral wipe-out -/

/-- C3: on `badCs`/`badInit` (all initial domains non-empty), `propagate`
returns `Some` of a solution in which the domains of variables 1 and 2 are
empty.  The `ReifiedOr` revision wiped them out collaterally while the
engine checked only the target variable 0, so the wipe-out was never
detected and the claim's "never returns Some of a solution containing an
empty domain" fails. -/
theorem c3_propagate_returns_empty_domain :
    propagate badCs badInit SearchStats.empty 20 =
      .ok (some badEnd, ⟨0, 0, [(0, ⟨3, 1, 0⟩)]⟩) ∧
    lookupD badEnd.domains 1 = some [] ∧
    lookupD badEnd.domains 2 = some [] := by
  refine ⟨rfl, rfl, rfl⟩

/-- C1: on `badCs`/`badInit`, `BacktrackingSearch::solve` (with
`SelectFirstHeuristic` and `DeterministicIdentityValueHeuristic`) returns
`Ok((Some(solution), stats))` whose domains at variables 1 and 2 are empty
— not singletons — because the variable heuristic finds no domain of size
greater than one and the search returns the adopted solution as-is. -/
theorem c1_solve_returns_incomplete_solution :
    backtrackingSolve badCs badInit 20 20 =
      .ok (some badEnd, ⟨1, 0, [(0, ⟨3, 1, 0⟩)]⟩) ∧
    lookupD badEnd.domains 1 = some [] ∧
    (badEnd.isComplete = false) := by
  refine ⟨rfl, rfl, rfl⟩

/-! ### C9 counterexample: propagation is not idempotent -/

/-- C9 counterexample: on `idemCs`/`idemInit` the first propagation returns
`Some(idemMid)` and a second propagation on `idemMid` returns
`Some(idemEnd)`, whose domain of variable 0 is strictly smaller — running
propagation twice does **not** yield the same solution as running it once.
(The `ReifiedOr` revision pruned variable 1 collaterally under target 2;
the arc `(0, Equal)` had already been drained and is only re-enqueued for
the target's dependents, so the pass ends before `Equal(0,1)` can prune
variable 0.) -/
theorem c9_propagate_not_idempotent :
    propagate idemCs idemInit SearchStats.empty 30 =
      .ok (some idemMid, ⟨0, 0, [(0, ⟨2, 0, 0⟩), (1, ⟨3, 1, 0⟩)]⟩) ∧
    propagate idemCs idemMid SearchStats.empty 30 =
      .ok (some idemEnd, ⟨0, 0, [(0, ⟨2, 1, 0⟩), (1, ⟨3, 0, 0⟩)]⟩) ∧
    lookupD idemMid.domains 0 = some [trueV, falseV] ∧
    lookupD idemEnd.domains 0 = some [falseV] ∧
    idemEnd.domains ≠ idemMid.domains := by
  refine ⟨rfl, rfl, rfl, rfl, by decide⟩

/-! ### C2 counterexample: pruning a non-target variable -/

/-- C2 counterexample: `BooleanOr([0,1,2])` revised at target 0 on `borSol`
returns `Pruned(new_solution)` in which the domain of variable **2** (not
the target) shrank from `{true, false}` to `{true}`, while the target's
domain is unchanged — the new solution does not differ from the old only in
the domain of the target variable. -/
theorem c2_revise_prunes_nontarget :
    Constraint.revise (.booleanOr [0, 1, 2]) 0 borSol =
      .ok (some ⟨[(0, [falseV]), (1, [falseV]), (2, [trueV])], [], 0⟩) ∧
    lookupD borSol.domains 0 = some [falseV] ∧
    lookupD borSol.domains 2 = some [trueV, falseV] := by
  refine ⟨rfl, rfl, rfl⟩

/-! ### Heap and worklist lemmas (C6) -/

theorem coe_set : ∀ (l : List WorkItem) (i : Nat) (b : WorkItem) (h : i < l.length),
    (↑(l.set i b) : Multiset WorkItem) + {l.get ⟨i, h⟩} = ↑l + {b}
  | x :: xs, 0, b, _ => by
    show (↑(b :: xs) : Multiset WorkItem) + {x} = ↑(x :: xs) + {b}
    simp only [← Multiset.cons_coe, ← Multiset.singleton_add]
    abel
  | x :: xs, i + 1, b, h => by
    have hi : i < xs.length := by simpa using Nat.succ_lt_succ_iff.mp h
    have ih := coe_set xs i b hi
    show (↑(x :: xs.set i b) : Multiset WorkItem) + {xs.get ⟨i, hi⟩} = ↑(x :: xs) + {b}
    calc (↑(x :: xs.set i b) : Multiset WorkItem) + {xs.get ⟨i, hi⟩}
        = x ::ₘ ((↑(xs.set i b) : Multiset WorkItem) + {xs.get ⟨i, hi⟩}) := by
          simp only [← Multiset.cons_coe]
          simp only [← Multiset.singleton_add]
          abel
      _ = x ::ₘ ((↑xs : Multiset WorkItem) + {b}) := by rw [ih]
      _ = (↑(x :: xs) : Multiset WorkItem) + {b} := by
          simp only [← Multiset.cons_coe, ← Multiset.singleton_add]
          abel

theorem swapAt_perm (l : List WorkItem) (i j : Nat) : (swapAt l i j).Perm l := by
  unfold swapAt
  cases hi : l.get? i with
  | none => exact List.Perm.refl l
  | some a =>
    cases hj : l.get? j with
    | none => exact List.Perm.refl l
    | some b =>
      obtain ⟨hil, hia⟩ := List.get?_eq_some.mp hi
      obtain ⟨hjl, hjb⟩ := List.get?_eq_some.mp hj
      have hjl' : j < (l.set i b).length := by simpa using hjl
      have hmid : (l.set i b).get ⟨j, hjl'⟩ = b := by
        by_cases hij : i = j
        · subst hij
          simp only [List.get_eq_getElem]
          exact List.getElem_set_self (by simpa using hjl)
        · simp only [List.get_eq_getElem]
          rw [List.getElem_set_ne hij]
          simpa [List.get_eq_getElem] using hjb
      have e1 : (↑(l.set i b) : Multiset WorkItem) + {a} = ↑l + {b} := by
        have hc := coe_set l i b hil
        rwa [hia] at hc
      have e2 : (↑((l.set i b).set j a) : Multiset WorkItem) + {b} =
          ↑(l.set i b) + {a} := by
        have hc := coe_set (l.set i b) j a hjl'
        rwa [hmid] at hc
      have hms : (↑((l.set i b).set j a) : Multiset WorkItem) = ↑l :=
        add_right_cancel (e2.trans e1)
      exact Multiset.coe_eq_coe.mp hms

theorem siftUpGo_perm (data : List WorkItem) (pos : Nat) :
    ∀ fuel, (siftUpGo data pos fuel).Perm data := by
  intro fuel
  induction fuel generalizing data pos with
  | zero => exact List.Perm.refl data
  | succ fuel ih =>
    unfold siftUpGo
    by_cases h : pos = 0
    · simp [h]
    · simp only [if_neg h]
      cases data.get? pos with
      | none => exact List.Perm.refl data
      | some e =>
        cases data.get? ((pos - 1) / 2) with
        | none => exact List.Perm.refl data
        | some p =>
          by_cases hle : itemLe e p
          · simp [hle]
          · simp only [hle, Bool.false_eq_true, if_false]
            exact (ih _ _).trans (swapAt_perm data pos ((pos - 1) / 2))

theorem siftUp_perm (data : List WorkItem) (pos : Nat) :
    (siftUp data pos).Perm data := siftUpGo_perm data pos pos

theorem siftDownLoop_perm (data : List WorkItem) (pos : Nat) :
    ∀ fuel, (siftDownLoop data pos fuel).1.Perm data := by
  intro fuel
  induction fuel generalizing data pos with
  | zero => exact List.Perm.refl data
  | succ fuel ih =>
    unfold siftDownLoop
    by_cases h : 2 * pos + 1 ≤ data.length - 2
    · simp only [if_pos h]
      exact (ih _ _).trans (swapAt_perm _ _ _)
    · simp only [if_neg h]
      by_cases h2 : 2 * pos + 1 = data.length - 1
      · simp only [if_pos h2]
        exact swapAt_perm _ _ _
      · simp only [if_neg h2]
        exact List.Perm.refl data

theorem siftDownToBottom_perm (data : List WorkItem) :
    (siftDownToBottom data).Perm data := by
  unfold siftDownToBottom
  exact (siftUp_perm _ _).trans (siftDownLoop_perm data 0 data.length)

theorem heapPush_perm (data : List WorkItem) (item : WorkItem) :
    (heapPush data item).Perm (item :: data) := by
  unfold heapPush
  exact (siftUp_perm _ _).trans (List.perm_append_singleton item data)

theorem heapPop_perm (data : List WorkItem) (item : WorkItem)
    (q : List WorkItem) (h : heapPop data = some (item, q)) :
    (item :: q).Perm data := by
  unfold heapPop at h
  split at h
  · exact absurd h (by simp)
  · rename_i last hl
    split at h
    · rename_i hh
      simp only [Option.some.injEq, Prod.mk.injEq] at h
      have hne : data ≠ [] := by
        intro hc; rw [hc] at hl; simp at hl
      have hdrop : data.dropLast = [] := List.head?_eq_none_iff.mp hh
      have hd : data = [last] := by
        have hx := List.dropLast_append_getLast hne
        rw [List.getLast?_eq_getLast data hne] at hl
        simp only [Option.some.injEq] at hl
        rw [hdrop, hl] at hx
        simpa using hx.symm
      rw [hd, ← h.1, ← h.2]
    · rename_i root hh
      simp only [Option.some.injEq, Prod.mk.injEq] at h
      have hne : data ≠ [] := by
        intro hc; rw [hc] at hl; simp at hl
      have hlen : 0 < data.dropLast.length := by
        cases hdl : data.dropLast with
        | nil => rw [hdl] at hh; simp at hh
        | cons y ys => simp [hdl]
      have hroot : data.dropLast.get ⟨0, hlen⟩ = root := by
        have h0 : data.dropLast.get? 0 = some root := by
          rw [List.get?_zero]; exact hh
        obtain ⟨hb, he⟩ := List.get?_eq_some.mp h0
        exact he
      have hperm1 : q.Perm (data.dropLast.set 0 last) := by
        rw [← h.2]
        exact siftDownToBottom_perm _
      have hcoe : (↑(data.dropLast.set 0 last) : Multiset WorkItem) + {root} =
          ↑data.dropLast + {last} := by
        have hc := coe_set data.dropLast 0 last hlen
        rwa [hroot] at hc
      have hdata : data.dropLast ++ [data.getLast hne] = data :=
        List.dropLast_append_getLast hne
      have hlast : data.getLast hne = last := by
        rw [List.getLast?_eq_getLast data hne] at hl
        simpa using hl
      have hms : (↑(item :: q) : Multiset WorkItem) = ↑data := by
        rw [← h.1]
        calc (↑(root :: q) : Multiset WorkItem)
            = ↑q + {root} := by
              simp only [← Multiset.cons_coe, ← Multiset.singleton_add]; abel
          _ = ↑(data.dropLast.set 0 last) + {root} := by
              rw [Multiset.coe_eq_coe.mpr hperm1]
          _ = ↑data.dropLast + {last} := hcoe
          _ = ↑(data.dropLast ++ [last]) := by
              rw [← Multiset.coe_singleton, ← Multiset.coe_add]
          _ = ↑data := by rw [← hlast, hdata]
      exact Multiset.coe_eq_coe.mp hms

theorem worklist_inv (wl : WorkList) (h : Reachable wl) :
    (pairsOf wl.queue).Nodup ∧ wl.members.Nodup ∧
    ∀ pr, pr ∈ wl.members ↔ pr ∈ pairsOf wl.queue := by
  induction h with
  | new => simp [WorkList.new, pairsOf]
  | push wl p v c hr ih =>
    obtain ⟨hq, hm, hiff⟩ := ih
    unfold WorkList.pushBack
    by_cases hc : wl.members.contains (v, c)
    · simp only [hc, if_true]
      exact ⟨hq, hm, hiff⟩
    · simp only [hc, Bool.false_eq_true, if_false]
      have hnotm : (v, c) ∉ wl.members := by simpa using hc
      have hnotq : (v, c) ∉ pairsOf wl.queue := fun hx => hnotm ((hiff _).mpr hx)
      have hperm : (pairsOf (heapPush wl.queue ⟨p, v, c⟩)).Perm
          ((v, c) :: pairsOf wl.queue) := (heapPush_perm _ _).map _
      refine ⟨?_, ?_, ?_⟩
      · exact hperm.nodup_iff.mpr (List.nodup_cons.mpr ⟨hnotq, hq⟩)
      · exact List.nodup_cons.mpr ⟨hnotm, hm⟩
      · intro pr
        rw [List.mem_cons, hperm.mem_iff, List.mem_cons, hiff pr]
  | pop wl wl' pr hr hpop ih =>
    obtain ⟨hq, hm, hiff⟩ := ih
    unfold WorkList.popFront at hpop
    cases hpp : heapPop wl.queue with
    | none => rw [hpp] at hpop; exact absurd hpop (by simp)
    | some itq =>
      obtain ⟨item, q⟩ := itq
      rw [hpp] at hpop
      simp only [Option.some.injEq, Prod.mk.injEq] at hpop
      obtain ⟨hpr, hwl'⟩ := hpop
      subst hwl'
      have hqp : (item :: q).Perm wl.queue := heapPop_perm _ _ _ hpp
      have hpairs : ((item.variableId, item.constraintId) :: pairsOf q).Perm
          (pairsOf wl.queue) := by
        simpa [pairsOf] using hqp.map (fun it => (it.variableId, it.constraintId))
      have hnodup_cons : ((item.variableId, item.constraintId) :: pairsOf q).Nodup :=
        hpairs.nodup_iff.mpr hq
      obtain ⟨hnotq, hq'⟩ := List.nodup_cons.mp hnodup_cons
      refine ⟨hq', hm.erase _, ?_⟩
      intro x
      rw [List.Nodup.mem_erase_iff hm, hiff x, ← hpairs.mem_iff, List.mem_cons]
      constructor
      · rintro ⟨hne, hx | hx⟩
        · exact absurd hx hne
        · exact hx
      · intro hx
        refine ⟨fun hc => ?_, Or.inr hx⟩
        rw [hc] at hx
        exact hnotq hx

/-- C6: for every reachable worklist state: (i) at most one occurrence of
any particular `(variable, constraint)` pair is present in the queue;
(ii) pushing a pair that is currently queued leaves the worklist unchanged,
whatever priority is supplied; (iii) pushing a pair right after it has been
popped enqueues it again. -/
theorem c6_worklist_invariants (wl : WorkList) (h : Reachable wl) :
    (pairsOf wl.queue).Nodup ∧
    (∀ p v c, (v, c) ∈ pairsOf wl.queue → wl.pushBack p v c = wl) ∧
    (∀ v c wl', wl.popFront = some ((v, c), wl') →
      ∀ p, (v, c) ∈ pairsOf ((wl'.pushBack p v c)).queue) := by
  obtain ⟨hq, hm, hiff⟩ := worklist_inv wl h
  refine ⟨hq, ?_, ?_⟩
  · intro p v c hin
    have hcont : wl.members.contains (v, c) = true := by
      simpa using (hiff _).mpr hin
    unfold WorkList.pushBack
    rw [if_pos hcont]
  · intro v c wl' hpop p
    unfold WorkList.popFront at hpop
    cases hpp : heapPop wl.queue with
    | none => rw [hpp] at hpop; exact absurd hpop (by simp)
    | some itq =>
      obtain ⟨item, q⟩ := itq
      rw [hpp] at hpop
      simp only [Option.some.injEq, Prod.mk.injEq] at hpop
      obtain ⟨hpr, hwl'⟩ := hpop
      have hnm : (v, c) ∉ wl'.members := by
        rw [← hwl']
        intro hx
        rw [← hpr.1, ← hpr.2] at hx
        rw [List.Nodup.mem_erase_iff hm] at hx
        exact hx.1 rfl
      have hcont : wl'.members.contains (v, c) = false := by simpa using hnm
      unfold WorkList.pushBack
      simp only [hcont, Bool.false_eq_true, if_false]
      have hperm : (pairsOf (heapPush wl'.queue ⟨p, v, c⟩)).Perm
          ((v, c) :: pairsOf wl'.queue) := (heapPush_perm _ _).map _
      exact hperm.mem_iff.mpr (List.mem_cons_self _ _)

/-- Witness for `c6_worklist_invariants` at the concrete reachable state
`c6wl`: its queue pairs are duplicate-free and re-pushing the queued pair
`(0, 0)` (even at a different priority) is a no-op. -/
theorem c6_worklist_invariants_witness :
    (pairsOf c6wl.queue).Nodup ∧ c6wl.pushBack 99 0 0 = c6wl :=
  ⟨(c6_worklist_invariants c6wl (Reachable.push _ 50 0 0 Reachable.new)).1,
   (c6_worklist_invariants c6wl
     (Reachable.push _ 50 0 0 Reachable.new)).2.1 99 0 0 (by decide)⟩

/-! ### Stats accumulation lemmas and C7 -/

theorem addPCS_zero (a : PerConstraintStats) : addPCS a .zero = a := by
  simp [addPCS, PerConstraintStats.zero]

theorem lookupPCS_bumpPCS_self (l : List (Nat × PerConstraintStats)) (id : Nat)
    (f : PerConstraintStats → PerConstraintStats) :
    lookupPCS (bumpPCS l id f) id = some (f ((lookupPCS l id).getD .zero)) := by
  induction l with
  | nil => simp [bumpPCS, lookupPCS]
  | cons kv rest ih =>
    by_cases hk : kv.1 = id
    · simp [bumpPCS, hk, lookupPCS]
    · simp [bumpPCS, hk, lookupPCS, ih]

theorem lookupPCS_bumpPCS_ne (l : List (Nat × PerConstraintStats)) (id id' : Nat)
    (f : PerConstraintStats → PerConstraintStats) (h : id' ≠ id) :
    lookupPCS (bumpPCS l id f) id' = lookupPCS l id' := by
  induction l with
  | nil =>
    simp only [bumpPCS, lookupPCS]
    rw [if_neg (fun hh => h hh.symm)]
  | cons kv rest ih =>
    by_cases hk : kv.1 = id
    · subst hk
      simp only [bumpPCS, if_pos rfl, lookupPCS]
      rw [if_neg (fun hh => h hh.symm), if_neg (fun hh => h hh.symm)]
    · simp only [bumpPCS, if_neg hk, lookupPCS]
      by_cases hk' : kv.1 = id'
      · simp [hk']
      · simp [hk', ih]

theorem lookupPCS_eq_none_of_not_mem (l : List (Nat × PerConstraintStats))
    (id : Nat) (h : id ∉ l.map Prod.fst) : lookupPCS l id = none := by
  induction l with
  | nil => simp [lookupPCS]
  | cons kv rest ih =>
    simp only [List.map_cons, List.mem_cons] at h
    push_neg at h
    simp only [lookupPCS]
    rw [if_neg (fun hh => h.1 hh.symm)]
    exact ih h.2

/-- One step of the stats-accumulation fold, pointwise. -/
theorem foldStats_pointwise (l : List (Nat × PerConstraintStats))
    (hnd : (l.map Prod.fst).Nodup) (acc : List (Nat × PerConstraintStats))
    (id : Nat) :
    (lookupPCS (l.foldl (fun a kv => bumpPCS a kv.1 (fun s =>
        ⟨s.revisions + kv.2.revisions, s.prunings + kv.2.prunings,
         s.timeSpentMicros + kv.2.timeSpentMicros⟩)) acc) id).getD .zero =
      addPCS ((lookupPCS acc id).getD .zero) ((lookupPCS l id).getD .zero) := by
  induction l generalizing acc with
  | nil => simp [lookupPCS, addPCS_zero]
  | cons kv rest ih =>
    simp only [List.map_cons, List.nodup_cons] at hnd
    simp only [List.foldl_cons]
    by_cases hk : kv.1 = id
    · subst hk
      rw [ih hnd.2]
      have hrest : lookupPCS rest kv.1 = none :=
        lookupPCS_eq_none_of_not_mem rest kv.1 hnd.1
      rw [hrest, lookupPCS_bumpPCS_self]
      simp only [lookupPCS, if_pos rfl, Option.getD_some, Option.getD_none]
      simp [addPCS, PerConstraintStats.zero]
    · rw [ih hnd.2]
      rw [lookupPCS_bumpPCS_ne _ _ _ _ (fun hh => hk hh.symm)]
      simp only [lookupPCS]
      rw [if_neg hk]

/-- `accumulateStats`, pointwise on every counter. -/
theorem accumulateStats_pointwise (cum st : SearchStats) (hwf : WFStats st) :
    (accumulateStats cum st).nodesVisited = cum.nodesVisited + st.nodesVisited ∧
    (accumulateStats cum st).backtracks = cum.backtracks + st.backtracks ∧
    ∀ id, statsFor (accumulateStats cum st) id =
      addPCS (statsFor cum id) (statsFor st id) := by
  refine ⟨rfl, rfl, fun id => ?_⟩
  unfold statsFor accumulateStats
  exact foldStats_pointwise st.constraintStats hwf cum.constraintStats id

theorem addPCS_assoc (a b c : PerConstraintStats) :
    addPCS (addPCS a b) c = addPCS a (addPCS b c) := by
  simp [addPCS, Nat.add_assoc]

theorem zero_addPCS (a : PerConstraintStats) : addPCS .zero a = a := by
  simp [addPCS, PerConstraintStats.zero]

theorem restartingLoop_spec (inner : Strategy) (policy : SearchStats → Bool)
    (cs : List Constraint) (initial : Solution) :
    ∀ (fuel attempt : Nat) (cum : SearchStats) (sol : Option Solution)
      (out : SearchStats),
      restartingLoop inner policy cs initial fuel attempt cum = .ok (sol, out) →
      (∀ i s st, inner cs initial i = .ok (s, st) → WFStats st) →
      ∃ k : Nat, ∃ sts : List SearchStats, sts.length = k + 1 ∧
        (∀ i, (hi : i < sts.length) → ∃ soli,
          inner cs initial (attempt + i) = .ok (soli, sts.get ⟨i, hi⟩) ∧
          (i < k → soli = none ∧ policy (sts.get ⟨i, hi⟩) = true)) ∧
        (∃ hk : k < sts.length,
          inner cs initial (attempt + k) = .ok (sol, sts.get ⟨k, hk⟩) ∧
          (sol.isSome = true ∨ policy (sts.get ⟨k, hk⟩) = false)) ∧
        out.nodesVisited =
          cum.nodesVisited + (sts.map SearchStats.nodesVisited).sum ∧
        out.backtracks = cum.backtracks + (sts.map SearchStats.backtracks).sum ∧
        (∀ id, statsFor out id =
          addPCS (statsFor cum id) (sumPCS (sts.map (fun s => statsFor s id)))) := by
  intro fuel
  induction fuel with
  | zero =>
    intro attempt cum sol out h _
    exact absurd h (by simp [restartingLoop])
  | succ fuel ih =>
    intro attempt cum sol out h hwf
    unfold restartingLoop at h
    cases hres : inner cs initial attempt with
    | error e =>
      rw [hres] at h
      exact absurd h (by simp [Bind.bind, Except.bind])
    | ok pr =>
      obtain ⟨solution, st⟩ := pr
      rw [hres] at h
      simp only [Bind.bind, Except.bind] at h
      have hwfst : WFStats st := hwf attempt solution st hres
      by_cases hcond : (solution.isSome || !policy st) = true
      · rw [if_pos hcond] at h
        simp only [Except.ok.injEq, Prod.mk.injEq] at h
        obtain ⟨hsol, hout⟩ := h
        refine ⟨0, [st], rfl, ?_, ?_, ?_, ?_, ?_⟩
        · intro i hi
          have hi0 : i = 0 := by
            have : i < 1 := by simpa using hi
            omega
          subst hi0
          exact ⟨solution, by simpa using hres, by omega⟩
        · refine ⟨Nat.zero_lt_one, by simpa [← hsol] using hres, ?_⟩
          rw [← hsol]
          rcases Bool.or_eq_true_iff.mp hcond with hs | hp
          · exact Or.inl hs
          · exact Or.inr (by simpa using hp)
        · rw [← hout]
          simp [(accumulateStats_pointwise cum st hwfst).1]
        · rw [← hout]
          simp [(accumulateStats_pointwise cum st hwfst).2.1]
        · intro id
          rw [← hout]
          rw [(accumulateStats_pointwise cum st hwfst).2.2 id]
          simp [sumPCS, addPCS_zero]
      · rw [if_neg hcond] at h
        obtain ⟨k', sts', hlen, hall, hlast, hnodes, hbt, hpcs⟩ :=
          ih (attempt + 1) (accumulateStats cum st) sol out h hwf
        have hsolnone : solution = none := by
          rcases Bool.or_eq_true_iff.not.mp hcond |> not_or.mp with ⟨hs, _⟩
          exact Option.not_isSome_iff_eq_none.mp (by simpa using hs)
        have hpol : policy st = true := by
          rcases Bool.or_eq_true_iff.not.mp hcond |> not_or.mp with ⟨_, hp⟩
          simpa using hp
        refine ⟨k' + 1, st :: sts', by simp [hlen], ?_, ?_, ?_, ?_, ?_⟩
        · intro i hi
          match i with
          | 0 =>
            refine ⟨solution, by simpa using hres, fun _ => ⟨hsolnone, hpol⟩⟩
          | j + 1 =>
            have hj : j < sts'.length := by
              have : j + 1 < sts'.length + 1 := by simpa using hi
              omega
            obtain ⟨solj, hj1, hj2⟩ := hall j hj
            refine ⟨solj, ?_, ?_⟩
            · rw [show attempt + (j + 1) = attempt + 1 + j from by omega]
              exact hj1
            · intro hjlt
              exact hj2 (by omega)
        · obtain ⟨hk, hl1, hl2⟩ := hlast
          refine ⟨by rw [List.length_cons]; omega, ?_, ?_⟩
          · rw [show attempt + (k' + 1) = attempt + 1 + k' from by omega]
            exact hl1
          · exact hl2
        · rw [hnodes, (accumulateStats_pointwise cum st hwfst).1]
          simp [Nat.add_assoc]
        · rw [hbt, (accumulateStats_pointwise cum st hwfst).2.1]
          simp [Nat.add_assoc]
        · intro id
          rw [hpcs id, (accumulateStats_pointwise cum st hwfst).2.2 id]
          simp [sumPCS, addPCS_assoc]

/-- C7: for every completed run of `RestartingSearch::solve`: there were
`k + 1` attempts, every attempt `i` is an invocation of the inner strategy
on the original initial solution (`inner cs initial i`); every attempt
before the last returned no solution with the policy voting to restart; the
last attempt produced the returned solution and the run stops there (a
solution was found or the policy declined); and the cumulative stats'
nodes_visited, backtracks and per-constraint revisions/prunings/time
counters are the componentwise sums of the per-attempt stats.  `WFStats`
is the `HashMap` key-uniqueness invariant of the attempt stats. -/
theorem c7_restarting_search (inner : Strategy) (policy : SearchStats → Bool)
    (cs : List Constraint) (initial : Solution) (fuel : Nat)
    (sol : Option Solution) (cum : SearchStats)
    (hok : restartingSolve inner policy cs initial fuel = .ok (sol, cum))
    (hwf : ∀ i s st, inner cs initial i = .ok (s, st) → WFStats st) :
    ∃ k : Nat, ∃ sts : List SearchStats, sts.length = k + 1 ∧
      (∀ i, (hi : i < sts.length) → ∃ soli,
        inner cs initial i = .ok (soli, sts.get ⟨i, hi⟩) ∧
        (i < k → soli = none ∧ policy (sts.get ⟨i, hi⟩) = true)) ∧
      (∃ hk : k < sts.length,
        inner cs initial k = .ok (sol, sts.get ⟨k, hk⟩) ∧
        (sol.isSome = true ∨ policy (sts.get ⟨k, hk⟩) = false)) ∧
      cum.nodesVisited = (sts.map SearchStats.nodesVisited).sum ∧
      cum.backtracks = (sts.map SearchStats.backtracks).sum ∧
      (∀ id, statsFor cum id = sumPCS (sts.map (fun s => statsFor s id))) := by
  obtain ⟨k, sts, hlen, hall, hlast, hn, hb, hp⟩ :=
    restartingLoop_spec inner policy cs initial fuel 0 SearchStats.empty sol
      cum hok hwf
  refine ⟨k, sts, hlen, ?_, ?_, ?_, ?_, ?_⟩
  · intro i hi
    obtain ⟨soli, h1, h2⟩ := hall i hi
    exact ⟨soli, by simpa using h1, h2⟩
  · obtain ⟨hk, h1, h2⟩ := hlast
    exact ⟨hk, by simpa using h1, h2⟩
  · simpa [SearchStats.empty] using hn
  · simpa [SearchStats.empty] using hb
  · intro id
    rw [hp id]
    simp [statsFor, SearchStats.empty, lookupPCS, zero_addPCS]

/-- Witness for `c7_restarting_search`: the concrete two-attempt run of
`c7inner` under `c7policy`, with the concrete cumulative stats `c7cum`. -/
theorem c7_restarting_search_witness :
    ∃ k : Nat, ∃ sts : List SearchStats, sts.length = k + 1 ∧
      (∀ i, (hi : i < sts.length) → ∃ soli,
        c7inner [] c7init i = .ok (soli, sts.get ⟨i, hi⟩) ∧
        (i < k → soli = none ∧ c7policy (sts.get ⟨i, hi⟩) = true)) ∧
      (∃ hk : k < sts.length,
        c7inner [] c7init k = .ok (some c7sol, sts.get ⟨k, hk⟩) ∧
        ((some c7sol).isSome = true ∨ c7policy (sts.get ⟨k, hk⟩) = false)) ∧
      c7cum.nodesVisited = (sts.map SearchStats.nodesVisited).sum ∧
      c7cum.backtracks = (sts.map SearchStats.backtracks).sum ∧
      (∀ id, statsFor c7cum id = sumPCS (sts.map (fun s => statsFor s id))) := by
  exact c7_restarting_search c7inner c7policy [] c7init 5
    (some c7sol) c7cum rfl (by
      intro i s st h
      by_cases hi : i = 0
      · simp [c7inner, hi] at h
        rw [← h.2]
        unfold WFStats
        decide
      · simp [c7inner, hi] at h
        rw [← h.2]
        unfold WFStats
        decide)

end Plico

namespace Plico

theorem frame_of_update (sol : Solution) (w : Nat) (vars : List Nat)
    (a b : Dom) (hw : w ∈ vars) (ha : lookupD sol.domains w = some a)
    (hsub : b.Sublist a) (hlt : b.length < a.length) :
    reviseFrameProp vars sol (sol.cloneWithDomains (updateD sol.domains w b)) := by
  refine ⟨rfl, rfl, keysD_updateD_of_mem _ _ _ _ ha, ?_, ?_, ?_⟩
  · intro v hv
    exact lookupD_updateD_ne _ _ _ _ (fun h => hv (h ▸ hw))
  · intro v x y hx hy
    simp only [Solution.cloneWithDomains] at hy
    by_cases hvw : v = w
    · subst hvw
      rw [ha] at hx
      rw [lookupD_updateD_self] at hy
      obtain rfl := Option.some.inj hx
      obtain rfl := Option.some.inj hy
      exact hsub
    · rw [lookupD_updateD_ne _ _ _ _ hvw] at hy
      rw [hx] at hy
      obtain rfl := Option.some.inj hy
      exact List.Sublist.refl _
  · exact ⟨w, hw, a, b, ha, lookupD_updateD_self _ _ _, hlt⟩

theorem frame_equal (a b t : Nat) (sol new : Solution)
    (ht : t ∈ [a, b])
    (h : reviseEqual a b t sol = .ok (some new)) :
    reviseFrameProp [a, b] sol new := by
  unfold reviseEqual getDom at h
  simp only [] at h
  cases hlt : lookupD sol.domains t with
  | none =>
    rw [hlt] at h
    simp [Bind.bind, Except.bind] at h
  | some td =>
    rw [hlt] at h
    cases hlo : lookupD sol.domains (if t = a then b else a) with
    | none =>
      rw [hlo] at h
      simp [Bind.bind, Except.bind] at h
    | some od =>
      rw [hlo] at h
      simp only [Bind.bind, Except.bind] at h
      by_cases hchg : (td.inter od).len < td.len
      · rw [if_pos hchg] at h
        simp only [Except.ok.injEq, Option.some.injEq] at h
        rw [← h]
        exact frame_of_update sol t [a, b] td (td.inter od) ht hlt
          (inter_sublist td od) hchg
      · rw [if_neg hchg] at h
        simp at h

end Plico

namespace Plico

theorem frame_notEqual (a b t : Nat) (sol new : Solution)
    (ht : t ∈ [a, b]) (h : reviseNotEqual a b t sol = .ok (some new)) :
    reviseFrameProp [a, b] sol new := by
  unfold reviseNotEqual getDom at h
  simp only [Bind.bind, Except.bind] at h
  split at h
  · exact absurd h (by simp)
  · rename_i od heqo
    split at h
    · exact absurd h (by simp)
    · rename_i vrm hsv
      split at h
      · exact absurd h (by simp)
      · rename_i td heqt
        split at h
        · rename_i hchg
          simp only [Except.ok.injEq, Option.some.injEq] at h
          have hlt : lookupD sol.domains t = some td := by
            cases hl : lookupD sol.domains t with
            | none => rw [hl] at heqt; simp at heqt
            | some d =>
              rw [hl] at heqt
              simp only [Except.ok.injEq] at heqt
              exact congrArg some heqt
          rw [← h]
          exact frame_of_update sol t [a, b] td _ ht hlt
            (retain_sublist td _) hchg
        · exact absurd h (by simp)

end Plico

namespace Plico

theorem getDom_ok (sol : Solution) (v : Nat) (d : Dom) (h : getDom sol v = .ok d) :
    lookupD sol.domains v = some d := by
  unfold getDom at h
  cases hl : lookupD sol.domains v with
  | none => rw [hl] at h; simp at h
  | some x =>
    rw [hl] at h
    simp only [Except.ok.injEq] at h
    rw [h]

theorem mem_keysD_of_lookup (l : Domains) (k : Nat) (d : Dom)
    (h : lookupD l k = some d) : k ∈ keysD l := by
  induction l with
  | nil => simp [lookupD] at h
  | cons kd rest ih =>
    by_cases hk : kd.1 = k
    · simp [keysD, hk]
    · simp only [lookupD, if_neg hk] at h
      simp [keysD, List.mem_cons]
      exact Or.inr (by simpa [keysD] using ih h)

theorem DomsRel.refl (vs : List Nat) (d0 : Domains) : DomsRel vs d0 d0 :=
  ⟨rfl, fun _ _ => rfl, fun _ a b ha hb => by
    rw [ha] at hb; obtain rfl := Option.some.inj hb; exact List.Sublist.refl _⟩

theorem DomsRel.mono (vs vs' : List Nat) (d0 d1 : Domains)
    (hsub : ∀ v, v ∈ vs → v ∈ vs') (h : DomsRel vs d0 d1) :
    DomsRel vs' d0 d1 :=
  ⟨h.1, fun v hv => h.2.1 v (fun hin => hv (hsub v hin)), h.2.2⟩

theorem DomsRel.trans (vs : List Nat) (d0 d1 d2 : Domains)
    (h01 : DomsRel vs d0 d1) (h12 : DomsRel vs d1 d2) : DomsRel vs d0 d2 := by
  refine ⟨h12.1.trans h01.1, fun v hv => (h12.2.1 v hv).trans (h01.2.1 v hv), ?_⟩
  intro v a c ha hc
  have hk : v ∈ keysD d1 := by
    rw [h01.1]
    exact mem_keysD_of_lookup d0 v a ha
  obtain ⟨b, hb⟩ := lookupD_isSome_of_mem_keys d1 v hk
  exact (h12.2.2 v b c hb hc).trans (h01.2.2 v a b ha hb)

theorem DomsRel.update (vs : List Nat) (d0 : Domains) (w : Nat) (a b : Dom)
    (hw : w ∈ vs) (ha : lookupD d0 w = some a) (hsub : b.Sublist a) :
    DomsRel vs d0 (updateD d0 w b) := by
  refine ⟨keysD_updateD_of_mem d0 w b a ha, ?_, ?_⟩
  · intro v hv
    exact lookupD_updateD_ne _ _ _ _ (fun h => hv (h ▸ hw))
  · intro v x y hx hy
    by_cases hvw : v = w
    · subst hvw
      rw [ha] at hx
      rw [lookupD_updateD_self] at hy
      obtain rfl := Option.some.inj hx
      obtain rfl := Option.some.inj hy
      exact hsub
    · rw [lookupD_updateD_ne _ _ _ _ hvw] at hy
      rw [hx] at hy
      obtain rfl := Option.some.inj hy
      exact List.Sublist.refl _

/-- A strict shrink witnessed against an intermediate map transfers to the
original map. -/
theorem strict_compose (vs : List Nat) (d0 d1 : Domains)
    (rel : DomsRel vs d0 d1) (v : Nat) (a1 : Dom) (d2 : Domains) (b2 : Dom)
    (h1 : lookupD d1 v = some a1) (h2 : lookupD d2 v = some b2)
    (hlt : b2.length < a1.length) :
    ∃ a0 b, lookupD d0 v = some a0 ∧ lookupD d2 v = some b ∧
      b.length < a0.length := by
  have hk : v ∈ keysD d0 := by
    rw [← rel.1]
    exact mem_keysD_of_lookup d1 v a1 h1
  obtain ⟨a0, ha0⟩ := lookupD_isSome_of_mem_keys d0 v hk
  have hle : a1.length ≤ a0.length :=
    (rel.2.2 v a0 a1 ha0 h1).length_le
  exact ⟨a0, b2, ha0, h2, Nat.lt_of_lt_of_le hlt hle⟩

/-- A strict shrink persists through a later monotone stage. -/
theorem strict_persist (vs : List Nat) (d1 d2 : Domains)
    (rel : DomsRel vs d1 d2) (v : Nat) (n : Nat) (b1 : Dom)
    (h1 : lookupD d1 v = some b1) (hlt : b1.length < n) :
    ∃ b2, lookupD d2 v = some b2 ∧ b2.length < n := by
  have hk : v ∈ keysD d2 := by
    rw [rel.1]
    exact mem_keysD_of_lookup d1 v b1 h1
  obtain ⟨b2, hb2⟩ := lookupD_isSome_of_mem_keys d2 v hk
  have hle : b2.length ≤ b1.length := (rel.2.2 v b1 b2 h1 hb2).length_le
  exact ⟨b2, hb2, Nat.lt_of_le_of_lt hle hlt⟩

theorem pruneAllToFalse_spec : ∀ (vs : List Nat) (ds ds' : Domains) (ch : Bool),
    pruneAllToFalse vs ds = .ok (ds', ch) →
    DomsRel vs ds ds' ∧
    (ch = true → ∃ v ∈ vs, ∃ a b, lookupD ds v = some a ∧
      lookupD ds' v = some b ∧ b.length < a.length) ∧
    (ch = false → ds' = ds) := by
  intro vs
  induction vs with
  | nil =>
    intro ds ds' ch h
    unfold pruneAllToFalse at h
    simp only [Except.ok.injEq, Prod.mk.injEq] at h
    obtain ⟨h1, h2⟩ := h
    subst h1; subst h2
    exact ⟨DomsRel.refl _ _, by simp, fun _ => rfl⟩
  | cons v rest ih =>
    intro ds ds' ch h
    unfold pruneAllToFalse at h
    cases hl : lookupD ds v with
    | none => rw [hl] at h; simp at h
    | some d =>
      rw [hl] at h
      simp only [] at h
      by_cases hchg : ((d.retain fun x => x = falseV).len < d.len)
      · rw [if_pos hchg] at h
        simp only [Bind.bind, Except.bind] at h
        cases hrec : pruneAllToFalse rest (updateD ds v (d.retain fun x => x = falseV)) with
        | error e => rw [hrec] at h; simp at h
        | ok pr =>
          obtain ⟨ds1, ch1⟩ := pr
          rw [hrec] at h
          simp only [Except.ok.injEq, Prod.mk.injEq] at h
          obtain ⟨hds, hch⟩ := h
          subst hds
          obtain ⟨rel1, _, _⟩ := ih _ _ _ hrec
          have relu : DomsRel (v :: rest) ds
              (updateD ds v (d.retain fun x => x = falseV)) :=
            DomsRel.update _ _ _ d _ (List.mem_cons_self v rest) hl
              (retain_sublist d _)
          have rel : DomsRel (v :: rest) ds ds1 :=
            DomsRel.trans _ _ _ _ relu
              (rel1.mono _ _ _ _ (fun x hx => List.mem_cons_of_mem v hx))
          refine ⟨rel, ?_, ?_⟩
          · intro _
            obtain ⟨b2, hb2, hbl⟩ := strict_persist rest _ ds1 rel1 v
              d.length (d.retain fun x => x = falseV)
              (lookupD_updateD_self _ _ _) hchg
            exact ⟨v, List.mem_cons_self v rest, d, b2, hl, hb2, hbl⟩
          · intro hf
            rw [← hch] at hf
            simp at hf
      · rw [if_neg hchg] at h
        obtain ⟨rel1, hstrict, hsame⟩ := ih _ _ _ h
        refine ⟨rel1.mono _ _ _ _ (fun x hx => List.mem_cons_of_mem v hx),
          ?_, hsame⟩
        intro hc
        obtain ⟨w, hw, a, b, ha, hb, hlt⟩ := hstrict hc
        exact ⟨w, List.mem_cons_of_mem v hw, a, b, ha, hb, hlt⟩

end Plico

namespace Plico

theorem memberPruneVars_spec (table : List (List SVal)) :
    ∀ (vs : List Nat) (i : Nat) (ds ds' : Domains) (ch : Bool),
    memberPruneVars table vs i ds = .ok (ds', ch) →
    DomsRel vs ds ds' ∧
    (ch = true → ∃ v ∈ vs, ∃ a b, lookupD ds v = some a ∧
      lookupD ds' v = some b ∧ b.length < a.length) ∧
    (ch = false → ds' = ds) := by
  intro vs
  induction vs with
  | nil =>
    intro i ds ds' ch h
    unfold memberPruneVars at h
    simp only [Except.ok.injEq, Prod.mk.injEq] at h
    obtain ⟨h1, h2⟩ := h
    subst h1; subst h2
    exact ⟨DomsRel.refl _ _, by simp, fun _ => rfl⟩
  | cons v rest ih =>
    intro i ds ds' ch h
    unfold memberPruneVars at h
    cases hl : lookupD ds v with
    | none => rw [hl] at h; simp at h
    | some d =>
      rw [hl] at h
      simp only [Bind.bind, Except.bind] at h
      cases hp : projCol table i with
      | error e => rw [hp] at h; simp at h
      | ok proj =>
        rw [hp] at h
        simp only [] at h
        by_cases hchg : ((d.retain fun val => proj.contains val).len < d.len)
        · rw [if_pos hchg] at h
          cases hrec : memberPruneVars table rest (i + 1)
              (updateD ds v (d.retain fun val => proj.contains val)) with
          | error e => rw [hrec] at h; simp at h
          | ok pr =>
            obtain ⟨ds1, ch1⟩ := pr
            rw [hrec] at h
            simp only [Except.ok.injEq, Prod.mk.injEq] at h
            obtain ⟨hds, hch⟩ := h
            subst hds
            obtain ⟨rel1, _, _⟩ := ih _ _ _ _ hrec
            have relu : DomsRel (v :: rest) ds
                (updateD ds v (d.retain fun val => proj.contains val)) :=
              DomsRel.update _ _ _ d _ (List.mem_cons_self v rest) hl
                (retain_sublist d _)
            have rel : DomsRel (v :: rest) ds ds1 :=
              DomsRel.trans _ _ _ _ relu
                (rel1.mono _ _ _ _ (fun x hx => List.mem_cons_of_mem v hx))
            refine ⟨rel, ?_, ?_⟩
            · intro _
              obtain ⟨b2, hb2, hbl⟩ := strict_persist rest _ ds1 rel1 v
                d.length (d.retain fun val => proj.contains val)
                (lookupD_updateD_self _ _ _) hchg
              exact ⟨v, List.mem_cons_self v rest, d, b2, hl, hb2, hbl⟩
            · intro hf
              rw [← hch] at hf
              simp at hf
        · rw [if_neg hchg] at h
          obtain ⟨rel1, hstrict, hsame⟩ := ih _ _ _ _ h
          refine ⟨rel1.mono _ _ _ _ (fun x hx => List.mem_cons_of_mem v hx),
            ?_, hsame⟩
          intro hc
          obtain ⟨w, hw, a, b, ha, hb, hlt⟩ := hstrict hc
          exact ⟨w, List.mem_cons_of_mem v hw, a, b, ha, hb, hlt⟩

end Plico

namespace Plico

theorem frame_of_rel (sol : Solution) (vars : List Nat) (ds' : Domains)
    (rel : DomsRel vars sol.domains ds')
    (hstrict : ∃ v ∈ vars, ∃ a b, lookupD sol.domains v = some a ∧
      lookupD ds' v = some b ∧ b.length < a.length) :
    reviseFrameProp vars sol (sol.cloneWithDomains ds') :=
  ⟨rfl, rfl, rel.1, rel.2.1, rel.2.2, hstrict⟩

theorem frame_allDifferent (vars : List Nat) (t : Nat) (sol new : Solution)
    (ht : t ∈ vars) (h : reviseAllDifferent vars t sol = .ok (some new)) :
    reviseFrameProp vars sol new := by
  unfold reviseAllDifferent at h
  simp only [] at h
  split at h
  · exact absurd h (by simp)
  · split at h
    · rename_i td heqt
      split at h
      · rename_i hchg
        simp only [Except.ok.injEq, Option.some.injEq] at h
        rw [← h]
        exact frame_of_update sol t vars td _ ht heqt (retain_sublist td _) hchg
      · exact absurd h (by simp)
    · exact absurd h (by simp)

theorem frame_absDiff (x y : Nat) (c : SVal) (t : Nat) (sol new : Solution)
    (ht : t ∈ [x, y]) (h : reviseAbsDiff x y c t sol = .ok (some new)) :
    reviseFrameProp [x, y] sol new := by
  unfold reviseAbsDiff at h
  simp only [Bind.bind, Except.bind] at h
  split at h
  · exact absurd h (by simp)
  · rename_i td heqt
    split at h
    · exact absurd h (by simp)
    · rename_i od heqo
      split at h
      · exact absurd h (by simp)
      · rename_i ov hsv
        split at h
        · exact absurd h (by simp)
        · rename_i v1 heq1
          split at h
          · exact absurd h (by simp)
          · rename_i v2 heq2
            split at h
            · rename_i hchg
              simp only [Except.ok.injEq, Option.some.injEq] at h
              rw [← h]
              exact frame_of_update sol t [x, y] td _ ht
                (getDom_ok sol t td heqt) (retain_sublist td _) hchg
            · exact absurd h (by simp)

end Plico

namespace Plico

theorem frame_sumOf (terms : List Nat) (sum t : Nat) (sol new : Solution)
    (ht : t ∈ terms ++ [sum])
    (h : reviseSumOf terms sum t sol = .ok (some new)) :
    reviseFrameProp (terms ++ [sum]) sol new := by
  unfold reviseSumOf at h
  simp only [Bind.bind, Except.bind] at h
  split at h
  · exact absurd h (by simp)
  · split at h
    · exact absurd h (by simp)
    · rename_i td heqt
      have hlt : lookupD sol.domains t = some td := getDom_ok sol t td heqt
      split at h
      · -- t = sum
        split at h
        · exact absurd h (by simp)
        · rename_i sb heqsb
          split at h
          · simp [pure, Except.pure] at h
          · simp [pure, Except.pure] at h
          · rename_i mn mx
            simp only [pure, Except.pure] at h
            split at h
            · rename_i hchg
              simp only [Except.ok.injEq, Option.some.injEq] at h
              rw [← h]
              exact frame_of_update sol t (terms ++ [sum]) td _ ht hlt
                (retain_sublist td _) hchg
            · exact absurd h (by simp)
      · -- t is a term
        split at h
        · exact absurd h (by simp)
        · rename_i sd heqsd
          split at h
          · rename_i minS maxS
            split at h
            · exact absurd h (by simp)
            · rename_i sb heqsb
              split at h
              · simp [pure, Except.pure] at h
              · simp only [pure, Except.pure] at h
                split at h
                · rename_i hchg
                  simp only [Except.ok.injEq, Option.some.injEq] at h
                  rw [← h]
                  exact frame_of_update sol t (terms ++ [sum]) td _ ht hlt
                    (retain_sublist td _) hchg
                · exact absurd h (by simp)
              · rename_i smn smx
                split at h
                · exact absurd h (by simp)
                · rename_i nmax heqmax
                  split at h
                  · exact absurd h (by simp)
                  · rename_i nmin heqmin
                    simp only [pure, Except.pure] at h
                    split at h
                    · rename_i hchg
                      simp only [Except.ok.injEq, Option.some.injEq] at h
                      rw [← h]
                      exact frame_of_update sol t (terms ++ [sum]) td _ ht hlt
                        (retain_sublist td _) hchg
                    · exact absurd h (by simp)
          · simp [pure, Except.pure] at h

end Plico

namespace Plico

theorem borScan_possibly_sub (sol : Solution) :
    ∀ (vars acc : List Nat) (kf : Nat) (possibly : List Nat) (kf' : Nat),
    borScan sol vars acc kf = .ok (some (possibly, kf')) →
    ∀ x ∈ possibly, x ∈ vars ∨ x ∈ acc := by
  intro vars
  induction vars with
  | nil =>
    intro acc kf possibly kf' h x hx
    unfold borScan at h
    simp only [Except.ok.injEq, Option.some.injEq, Prod.mk.injEq] at h
    exact Or.inr (h.1 ▸ hx)
  | cons v rest ih =>
    intro acc kf possibly kf' h x hx
    unfold borScan at h
    simp only [Bind.bind, Except.bind] at h
    split at h
    · exact absurd h (by simp)
    · rename_i d heqd
      split at h
      · split at h
        · exact absurd h (by simp)
        · rcases ih acc (kf + 1) possibly kf' h x hx with hr | ha
          · exact Or.inl (List.mem_cons_of_mem v hr)
          · exact Or.inr ha
      · rcases ih (acc ++ [v]) kf possibly kf' h x hx with hr | ha
        · exact Or.inl (List.mem_cons_of_mem v hr)
        · rcases List.mem_append.mp ha with ha | hv
          · exact Or.inr ha
          · exact Or.inl (List.mem_cons.mpr (Or.inl (List.mem_singleton.mp hv)))

theorem frame_booleanOr (vars : List Nat) (t : Nat) (sol new : Solution)
    (h : reviseBooleanOr vars t sol = .ok (some new)) :
    reviseFrameProp vars sol new := by
  unfold reviseBooleanOr at h
  simp only [Bind.bind, Except.bind] at h
  split at h
  · exact absurd h (by simp)
  · split at h
    · exact absurd h (by simp)
    · next possibly kf heqscan =>
      split at h
      · next lastHope =>
        split at h
        · next hkf =>
          split at h
          · exact absurd h (by simp)
          · next d heqd =>
            split at h
            · next hchg =>
              simp only [Except.ok.injEq, Option.some.injEq] at h
              have hmem : lastHope ∈ vars := by
                rcases borScan_possibly_sub sol vars [] 0 [lastHope] _ heqscan
                    lastHope (List.mem_singleton_self _) with hm | hm
                · exact hm
                · simp at hm
              rw [← h]
              exact frame_of_update sol lastHope vars d _ hmem
                (getDom_ok sol lastHope d heqd) (retain_sublist d _) hchg
            · exact absurd h (by simp)
        · exact absurd h (by simp)
      · exact absurd h (by simp)

end Plico

namespace Plico

theorem frame_reifiedEqualXY (b tg ot : Nat) (vars : List Nat)
    (sol new : Solution) (htg : tg ∈ vars)
    (h : reviseReifiedEqualXY b tg ot sol = .ok (some new)) :
    reviseFrameProp vars sol new := by
  unfold reviseReifiedEqualXY at h
  simp only [Bind.bind, Except.bind] at h
  split at h
  · exact absurd h (by simp)
  · next bd heqb =>
    split at h
    · exact absurd h (by simp)
    · next td heqt =>
      split at h
      · exact absurd h (by simp)
      · next od heqo =>
        by_cases h1 : (bd.len = 1 ∧ bd.singletonVal = some trueV)
        · rw [if_pos h1] at h
          split at h
          · next hchg =>
            simp only [Except.ok.injEq, Option.some.injEq] at h
            rw [← h]
            exact frame_of_update sol tg vars td _ htg
              (getDom_ok sol tg td heqt) (inter_sublist td od) hchg
          · exact absurd h (by simp)
        · rw [if_neg h1] at h
          by_cases h2 : ((bd.len = 1 ∧ bd.singletonVal = some falseV) ∧ od.len = 1)
          · rw [if_pos h2] at h
            cases hsv : od.singletonVal with
            | some ov =>
              rw [hsv] at h
              split at h
              · next hchg =>
                simp only [Except.ok.injEq, Option.some.injEq] at h
                rw [← h]
                exact frame_of_update sol tg vars td _ htg
                  (getDom_ok sol tg td heqt) (retain_sublist td _) hchg
              · exact absurd h (by simp)
            | none =>
              rw [hsv] at h
              split at h
              · next hchg => exact absurd hchg (by simp)
              · exact absurd h (by simp)
          · rw [if_neg h2] at h
            split at h
            · next hchg => exact absurd hchg (by simp)
            · exact absurd h (by simp)

theorem frame_reifiedEqualB (b x y : Nat) (vars : List Nat)
    (sol new : Solution) (hb : b ∈ vars)
    (h : reviseReifiedEqualB b x y sol = .ok (some new)) :
    reviseFrameProp vars sol new := by
  unfold reviseReifiedEqualB at h
  simp only [Bind.bind, Except.bind] at h
  split at h
  · exact absurd h (by simp)
  · next bd heqb =>
    split at h
    · exact absurd h (by simp)
    · next xd heqx =>
      split at h
      · exact absurd h (by simp)
      · next yd heqy =>
        by_cases hdis : ((xd.inter yd).len = 0)
        · rw [if_pos hdis] at h
          by_cases hch1 : ((bd.retain fun v => v = falseV).len < bd.len)
          · rw [if_pos hch1] at h
            simp only [Except.ok.injEq, Option.some.injEq] at h
            rw [← h]
            exact frame_of_update sol b vars bd _ hb
              (getDom_ok sol b bd heqb) (retain_sublist bd _) hch1
          · rw [if_neg hch1] at h
            simp only [] at h
            split at h
            · next hsing =>
              split at h
              · next hch2 =>
                simp only [Except.ok.injEq, Option.some.injEq] at h
                rw [← h]
                exact frame_of_update sol b vars bd _ hb
                  (getDom_ok sol b bd heqb) (retain_sublist bd _) hch2
              · exact absurd h (by simp)
            · exact absurd h (by simp)
        · rw [if_neg hdis] at h
          simp only [] at h
          split at h
          · next hsing =>
            split at h
            · next hch2 =>
              simp only [Except.ok.injEq, Option.some.injEq] at h
              rw [← h]
              exact frame_of_update sol b vars bd _ hb
                (getDom_ok sol b bd heqb) (retain_sublist bd _) hch2
            · exact absurd h (by simp)
          · exact absurd h (by simp)

end Plico

namespace Plico

theorem DomsRel.update_from_base (vs : List Nat) (base mid : Domains)
    (w : Nat) (a b : Dom) (rel : DomsRel vs base mid) (hw : w ∈ vs)
    (ha : lookupD base w = some a) (hsub : b.Sublist a) :
    DomsRel vs base (updateD mid w b) := by
  have hkmid : w ∈ keysD mid := by
    rw [rel.1]
    exact mem_keysD_of_lookup base w a ha
  obtain ⟨xb, hxb⟩ := lookupD_isSome_of_mem_keys mid w hkmid
  refine ⟨(keysD_updateD_of_mem mid w b xb hxb).trans rel.1, ?_, ?_⟩
  · intro v hv
    have hvw : v ≠ w := fun h => hv (by rw [h]; exact hw)
    rw [lookupD_updateD_ne _ _ _ _ hvw]
    exact rel.2.1 v hv
  · intro v x y hx hy
    by_cases hvw : v = w
    · subst hvw
      rw [ha] at hx
      rw [lookupD_updateD_self] at hy
      obtain rfl := Option.some.inj hx
      obtain rfl := Option.some.inj hy
      exact hsub
    · rw [lookupD_updateD_ne _ _ _ _ hvw] at hy
      exact rel.2.2 v x y hx hy

theorem reifiedOr_end_update (sol new : Solution) (bOut : Nat) (bIn : List Nat)
    (bd nb : Dom) (nd2 : Domains) (ch2 : Bool)
    (heqb : lookupD sol.domains bOut = some bd) (hsub : nb.Sublist bd)
    (hlt : nb.length < bd.length)
    (hp : pruneAllToFalse bIn (updateD sol.domains bOut nb) = .ok (nd2, ch2))
    (hnew : sol.cloneWithDomains nd2 = new) :
    reviseFrameProp (bIn ++ [bOut]) sol new := by
  obtain ⟨rel2, _, _⟩ := pruneAllToFalse_spec bIn _ nd2 ch2 hp
  have hbmem : bOut ∈ bIn ++ [bOut] := List.mem_append_right _ (by simp)
  have rel1 : DomsRel (bIn ++ [bOut]) sol.domains
      (updateD sol.domains bOut nb) :=
    DomsRel.update _ _ _ bd _ hbmem heqb hsub
  have rel : DomsRel (bIn ++ [bOut]) sol.domains nd2 :=
    DomsRel.trans _ _ _ _ rel1
      (rel2.mono _ _ _ _ (fun x hx => List.mem_append_left _ hx))
  obtain ⟨b2, hb2, hbl⟩ := strict_persist bIn _ nd2 rel2 bOut bd.length nb
    (lookupD_updateD_self _ _ _) hlt
  rw [← hnew]
  exact frame_of_rel sol _ nd2 rel ⟨bOut, hbmem, bd, b2, heqb, hb2, hbl⟩

theorem reifiedOr_end_prune (sol new : Solution) (bOut : Nat) (bIn : List Nat)
    (nd2 : Domains)
    (hp : pruneAllToFalse bIn sol.domains = .ok (nd2, true))
    (hnew : sol.cloneWithDomains nd2 = new) :
    reviseFrameProp (bIn ++ [bOut]) sol new := by
  obtain ⟨rel2, hstrict, _⟩ := pruneAllToFalse_spec bIn _ nd2 true hp
  obtain ⟨v, hv, a, b, ha, hb, hlt⟩ := hstrict rfl
  rw [← hnew]
  exact frame_of_rel sol _ nd2
    (rel2.mono _ _ _ _ (fun x hx => List.mem_append_left _ hx))
    ⟨v, List.mem_append_left _ hv, a, b, ha, hb, hlt⟩

end Plico

namespace Plico

theorem frame_reifiedOr (bOut : Nat) (bIn : List Nat) (t : Nat)
    (sol new : Solution)
    (h : reviseReifiedOr bOut bIn t sol = .ok (some new)) :
    reviseFrameProp (bIn ++ [bOut]) sol new := by
  unfold reviseReifiedOr at h
  simp only [Bind.bind, Except.bind] at h
  split at h
  · exact absurd h (by simp)
  · rename_i bd heqb
    split at h
    · exact absurd h (by simp)
    · rename_i scanres pr heqscan
      obtain ⟨anyT, allF⟩ := pr
      have hlk : lookupD sol.domains bOut = some bd := getDom_ok sol bOut bd heqb
      have hbm : bOut ∈ bIn ++ [bOut] := List.mem_append_right _ (by simp)
      by_cases hsf : (bd.len = 1 ∧ bd.singletonVal = some falseV)
      · cases anyT with
        | false =>
          cases allF with
          | false =>
            simp only [Bool.false_eq_true, if_false, Bool.false_or] at h
            rw [if_pos hsf] at h
            split at h
            · exact absurd h (by simp)
            · rename_i v heqp
              obtain ⟨nd2, ch2⟩ := v
              cases ch2 with
              | false => simp at h
              | true =>
                simp only [if_true, Except.ok.injEq, Option.some.injEq] at h
                exact reifiedOr_end_prune sol new bOut bIn nd2 heqp h
          | true =>
            simp only [Bool.false_eq_true, if_false, if_true] at h
            by_cases hch1 : ((bd.retain fun v => decide (v = falseV)).len < bd.len)
            · rw [if_pos hch1] at h
              rw [if_pos hsf] at h
              simp only [Bool.true_or, if_true] at h
              split at h
              · exact absurd h (by simp)
              · rename_i v heqp
                obtain ⟨nd2, ch2⟩ := v
                simp only [if_true, Except.ok.injEq, Option.some.injEq] at h
                exact reifiedOr_end_update sol new bOut bIn bd _ nd2 ch2 hlk
                  (retain_sublist bd _) hch1 heqp h
            · rw [if_neg hch1] at h
              rw [if_pos hsf] at h
              simp only [Bool.false_or] at h
              split at h
              · exact absurd h (by simp)
              · rename_i v heqp
                obtain ⟨nd2, ch2⟩ := v
                cases ch2 with
                | false => simp at h
                | true =>
                  simp only [if_true, Except.ok.injEq, Option.some.injEq] at h
                  exact reifiedOr_end_prune sol new bOut bIn nd2 heqp h
        | true =>
          simp only [if_true] at h
          by_cases hch1 : ((bd.retain fun v => decide (v = trueV)).len < bd.len)
          · rw [if_pos hch1] at h
            rw [if_pos hsf] at h
            simp only [Bool.true_or, if_true] at h
            split at h
            · exact absurd h (by simp)
            · rename_i v heqp
              obtain ⟨nd2, ch2⟩ := v
              simp only [if_true, Except.ok.injEq, Option.some.injEq] at h
              exact reifiedOr_end_update sol new bOut bIn bd _ nd2 ch2 hlk
                (retain_sublist bd _) hch1 heqp h
          · rw [if_neg hch1] at h
            rw [if_pos hsf] at h
            simp only [Bool.false_or] at h
            split at h
            · exact absurd h (by simp)
            · rename_i v heqp
              obtain ⟨nd2, ch2⟩ := v
              cases ch2 with
              | false => simp at h
              | true =>
                simp only [if_true, Except.ok.injEq, Option.some.injEq] at h
                exact reifiedOr_end_prune sol new bOut bIn nd2 heqp h
      · cases anyT with
        | false =>
          cases allF with
          | false =>
            simp only [Bool.false_eq_true, if_false, Bool.false_or] at h
            rw [if_neg hsf] at h
            simp at h
          | true =>
            simp only [Bool.false_eq_true, if_false, if_true] at h
            by_cases hch1 : ((bd.retain fun v => decide (v = falseV)).len < bd.len)
            · rw [if_pos hch1] at h
              rw [if_neg hsf] at h
              simp only [Bool.true_or, if_true, Except.ok.injEq, Option.some.injEq] at h
              rw [← h]
              exact frame_of_update sol bOut (bIn ++ [bOut]) bd _ hbm hlk
                (retain_sublist bd _) hch1
            · rw [if_neg hch1] at h
              rw [if_neg hsf] at h
              simp at h
        | true =>
          simp only [if_true] at h
          by_cases hch1 : ((bd.retain fun v => decide (v = trueV)).len < bd.len)
          · rw [if_pos hch1] at h
            rw [if_neg hsf] at h
            simp only [Bool.true_or, if_true, Except.ok.injEq, Option.some.injEq] at h
            rw [← h]
            exact frame_of_update sol bOut (bIn ++ [bOut]) bd _ hbm hlk
              (retain_sublist bd _) hch1
          · rw [if_neg hch1] at h
            rw [if_neg hsf] at h
            simp at h

end Plico

namespace Plico

theorem frame_memberOf (b : Nat) (vars : List Nat) (table : List (List SVal))
    (t : Nat) (sol new : Solution)
    (h : reviseMemberOf b vars table t sol = .ok (some new)) :
    reviseFrameProp (vars ++ [b]) sol new := by
  unfold reviseMemberOf at h
  simp only [Bind.bind, Except.bind] at h
  split at h
  · exact absurd h (by simp)
  · rename_i bd heqb
    have hlk : lookupD sol.domains b = some bd := getDom_ok sol b bd heqb
    have hbm : b ∈ vars ++ [b] := List.mem_append_right _ (by simp)
    have hsubvars : ∀ x ∈ vars, x ∈ vars ++ [b] :=
      fun x hx => List.mem_append_left _ hx
    by_cases hsb : (bd.len = 1 ∧ bd.singletonVal = some trueV)
    · rw [if_pos hsb] at h
      split at h
      · exact absurd h (by simp)
      · rename_i pr heqm
        obtain ⟨nd1, ch1⟩ := pr
        obtain ⟨relm, hstrictm, hsamem⟩ :=
          memberPruneVars_spec table vars 0 _ _ _ heqm
        split at h
        · exact absurd h (by simp)
        · rename_i doms heqd
          cases ch1 with
          | true =>
            obtain ⟨w, hw, a0, b0, ha0, hb0, hlt0⟩ := hstrictm rfl
            simp only [Bool.true_or, if_true, Except.ok.injEq,
              Option.some.injEq] at h
            split at h
            · split at h
              · rename_i hc2
                have rel : DomsRel (vars ++ [b]) sol.domains
                    (updateD nd1 b (bd.retain fun v => decide (v = falseV))) :=
                  DomsRel.update_from_base _ _ _ b bd _
                    (relm.mono _ _ _ _ hsubvars) hbm hlk (retain_sublist bd _)
                rw [← h]
                exact frame_of_rel sol _ _ rel
                  ⟨b, hbm, bd, _, hlk, lookupD_updateD_self _ _ _, hc2⟩
              · rw [← h]
                exact frame_of_rel sol _ nd1 (relm.mono _ _ _ _ hsubvars)
                  ⟨w, hsubvars w hw, a0, b0, ha0, hb0, hlt0⟩
            · rw [← h]
              exact frame_of_rel sol _ nd1 (relm.mono _ _ _ _ hsubvars)
                ⟨w, hsubvars w hw, a0, b0, ha0, hb0, hlt0⟩
          | false =>
            have hnd1 : nd1 = sol.domains := hsamem rfl
            subst hnd1
            simp only [Bool.false_or] at h
            split at h
            · split at h
              · rename_i hc2
                simp only [if_true, Except.ok.injEq, Option.some.injEq] at h
                rw [← h]
                exact frame_of_update sol b (vars ++ [b]) bd _ hbm hlk
                  (retain_sublist bd _) hc2
              · exact absurd h (by simp)
            · exact absurd h (by simp)
    · rw [if_neg hsb] at h
      split at h
      · exact absurd h (by simp)
      · rename_i doms heqd
        simp only [Bool.false_or] at h
        split at h
        · split at h
          · rename_i hc2
            simp only [if_true, Except.ok.injEq, Option.some.injEq] at h
            rw [← h]
            exact frame_of_update sol b (vars ++ [b]) bd _ hbm hlk
              (retain_sublist bd _) hc2
          · exact absurd h (by simp)
        · exact absurd h (by simp)

end Plico

namespace Plico

theorem revise_frame (c : Constraint) (t : Nat) (sol new : Solution)
    (ht : t ∈ c.variablesOf)
    (h : Constraint.revise c t sol = .ok (some new)) :
    reviseFrameProp c.variablesOf sol new := by
  cases c with
  | equal a b => exact frame_equal a b t sol new ht h
  | notEqual a b => exact frame_notEqual a b t sol new ht h
  | allDifferent vars => exact frame_allDifferent vars t sol new ht h
  | absDiffNotEqual x y cc => exact frame_absDiff x y cc t sol new ht h
  | sumOf terms sum => exact frame_sumOf terms sum t sol new ht h
  | booleanOr vars => exact frame_booleanOr vars t sol new h
  | reifiedEqual b x y =>
    simp only [Constraint.revise] at h
    by_cases htb : t = b
    · rw [if_pos htb] at h
      exact frame_reifiedEqualB b x y _ sol new (by simp [Constraint.variablesOf]) h
    · rw [if_neg htb] at h
      by_cases htx : t = x
      · rw [if_pos htx] at h
        exact frame_reifiedEqualXY b x y _ sol new
          (by simp [Constraint.variablesOf]) h
      · rw [if_neg htx] at h
        by_cases hty : t = y
        · rw [if_pos hty] at h
          exact frame_reifiedEqualXY b y x _ sol new
            (by simp [Constraint.variablesOf]) h
        · rw [if_neg hty] at h
          exact absurd h (by simp)
  | reifiedOr bOut bIn => exact frame_reifiedOr bOut bIn t sol new h
  | reifiedMemberOf b vars table => exact frame_memberOf b vars table t sol new h

/-- **C2** (amended): a successful pruning revision changes only domains of
variables in the constraint's variable list, shrinks at least one of them
strictly, keeps every domain a subset of its prior value, and leaves the
key set, metadata and semantics handle unchanged. -/
theorem c2_revise_frame_amended (c : Constraint) (t : Nat) (sol new : Solution)
    (ht : t ∈ c.variablesOf)
    (h : Constraint.revise c t sol = .ok (some new)) :
    reviseFrameProp c.variablesOf sol new :=
  revise_frame c t sol new ht h

theorem c2_revise_frame_amended_witness :
    0 ∈ (Constraint.equal 0 1).variablesOf ∧
    Constraint.revise (Constraint.equal 0 1) 0 c2wSol = .ok (some c2wNew) ∧
    reviseFrameProp (Constraint.equal 0 1).variablesOf c2wSol c2wNew :=
  ⟨by decide, by rfl,
   c2_revise_frame_amended (Constraint.equal 0 1) 0 c2wSol c2wNew
     (by decide) (by rfl)⟩

end Plico

namespace Plico

theorem pushBack_queue_mem (wl : WorkList) (p v cid : Nat) (it : WorkItem)
    (hit : it ∈ (wl.pushBack p v cid).queue) :
    it ∈ wl.queue ∨ it = ⟨p, v, cid⟩ := by
  unfold WorkList.pushBack at hit
  split at hit
  · exact Or.inl hit
  · simp only [] at hit
    have := (heapPush_perm wl.queue ⟨p, v, cid⟩).subset hit
    rcases List.mem_cons.mp this with heq | hm
    · exact Or.inr heq
    · exact Or.inl hm

theorem seed_inner_mem (prio cid : Nat) :
    ∀ (vs : List Nat) (wl : WorkList) (it : WorkItem),
    it ∈ (vs.foldl (fun w v => w.pushBack prio v cid) wl).queue →
    it ∈ wl.queue ∨ ∃ v ∈ vs, it = ⟨prio, v, cid⟩ := by
  intro vs
  induction vs with
  | nil => intro wl it hit; exact Or.inl hit
  | cons v rest ih =>
    intro wl it hit
    simp only [List.foldl_cons] at hit
    rcases ih (wl.pushBack prio v cid) it hit with hm | ⟨w, hw, heq⟩
    · rcases pushBack_queue_mem wl prio v cid it hm with hm' | heq
      · exact Or.inl hm'
      · exact Or.inr ⟨v, List.mem_cons_self v rest, heq⟩
    · exact Or.inr ⟨w, List.mem_cons_of_mem v hw, heq⟩

theorem seed_outer_mem :
    ∀ (l : List (Nat × Constraint)) (wl : WorkList) (it : WorkItem),
    it ∈ (l.foldl (fun w ic =>
      ic.2.variablesOf.foldl
        (fun w2 v => w2.pushBack ic.2.priorityOf v ic.1) w) wl).queue →
    it ∈ wl.queue ∨ ∃ ic ∈ l, it.constraintId = ic.1 ∧
      it.variableId ∈ ic.2.variablesOf := by
  intro l
  induction l with
  | nil => intro wl it hit; exact Or.inl hit
  | cons ic rest ih =>
    intro wl it hit
    simp only [List.foldl_cons] at hit
    rcases ih _ it hit with hm | ⟨jc, hjc, h1, h2⟩
    · rcases seed_inner_mem ic.2.priorityOf ic.1 ic.2.variablesOf wl it hm with
        hm' | ⟨v, hv, heq⟩
      · exact Or.inl hm'
      · subst heq
        exact Or.inr ⟨ic, List.mem_cons_self ic rest, rfl, hv⟩
    · exact Or.inr ⟨jc, List.mem_cons_of_mem ic hjc, h1, h2⟩

theorem seed_arcs (cs : List Constraint) (it : WorkItem)
    (hit : it ∈ (seedWorklist cs).queue) :
    ∃ c, cs.get? it.constraintId = some c ∧ it.variableId ∈ c.variablesOf := by
  unfold seedWorklist at hit
  rcases seed_outer_mem cs.enum WorkList.new it hit with hm | ⟨ic, hic, h1, h2⟩
  · simp [WorkList.new] at hm
  · refine ⟨ic.2, ?_, ?_⟩
    · rw [h1]
      rw [List.get?_eq_getElem?]
      have : (ic.1, ic.2) ∈ cs.enum := by
        rw [show ((ic.1 : Nat), ic.2) = ic from rfl]
        exact hic
      exact (List.mem_enum_iff_getElem?.mp this)
    · exact h2

theorem propagateLoop_fixed (cs : List Constraint) (s : Solution) :
    ∀ (fuel : Nat) (wl : WorkList) (stats : SearchStats),
    (∀ it ∈ wl.queue, ∃ c, cs.get? it.constraintId = some c ∧
      Constraint.revise c it.variableId s = .ok none) →
    wl.queue.length < fuel →
    ∃ stats', propagateLoop cs fuel wl s stats = .ok (some s, stats') := by
  intro fuel
  induction fuel with
  | zero => intro wl stats _ hf; exact absurd hf (Nat.not_lt_zero _)
  | succ fuel ih =>
    intro wl stats harcs hf
    cases hq : heapPop wl.queue with
    | none =>
      have hpf : wl.popFront = none := by
        unfold WorkList.popFront; rw [hq]
      exact ⟨stats, by simp only [propagateLoop, hpf]⟩
    | some pr =>
      obtain ⟨item, q⟩ := pr
      have hpf : wl.popFront = some ((item.variableId, item.constraintId),
          ⟨q, wl.members.erase (item.variableId, item.constraintId)⟩) := by
        unfold WorkList.popFront; rw [hq]
      have perm := heapPop_perm wl.queue item q hq
      have hmem : item ∈ wl.queue := perm.subset (List.mem_cons_self _ _)
      obtain ⟨c, hc, hrev⟩ := harcs item hmem
      have harcs' : ∀ it ∈ q, ∃ c, cs.get? it.constraintId = some c ∧
          Constraint.revise c it.variableId s = .ok none :=
        fun it hit => harcs it (perm.subset (List.mem_cons_of_mem _ hit))
      have hlen : q.length < fuel := by
        have hl := perm.length_eq
        simp only [List.length_cons] at hl
        omega
      obtain ⟨st', hst'⟩ := ih
        ⟨q, wl.members.erase (item.variableId, item.constraintId)⟩
        (SearchStats.mk stats.nodesVisited stats.backtracks
          (bumpPCS (bumpPCS stats.constraintStats item.constraintId
              (fun s => { s with revisions := s.revisions + 1 }))
            item.constraintId
            (fun s => { s with timeSpentMicros := s.timeSpentMicros + 0 })))
        harcs' hlen
      refine ⟨st', ?_⟩
      simp only [propagateLoop, hpf, hc, Bind.bind, Except.bind, hrev]
      exact hst'

/-- **C9** (amended): on a solution that is a fixed point of every
revision (each arc revises to Unchanged), propagation returns the very
same solution; the general idempotence claimed by the spec fails (see the
counterexample), because only target-domain prunings are re-enqueued. -/
theorem c9_propagate_fixed_point_amended (cs : List Constraint) (s : Solution)
    (stats : SearchStats) (fuel : Nat)
    (hfix : ∀ c ∈ cs, ∀ v ∈ c.variablesOf,
      Constraint.revise c v s = .ok none)
    (hfuel : (seedWorklist cs).queue.length < fuel) :
    ∃ stats', propagate cs s stats fuel = .ok (some s, stats') := by
  unfold propagate
  refine propagateLoop_fixed cs s fuel (seedWorklist cs) stats ?_ hfuel
  intro it hit
  obtain ⟨c, hc, hv⟩ := seed_arcs cs it hit
  exact ⟨c, hc, hfix c (List.get?_mem hc) it.variableId hv⟩

theorem c9_propagate_fixed_point_amended_witness :
    (∀ c ∈ [Constraint.equal 0 1], ∀ v ∈ c.variablesOf,
      Constraint.revise c v c9wSol = .ok none) ∧
    (seedWorklist [Constraint.equal 0 1]).queue.length < 3 ∧
    ∃ stats', propagate [Constraint.equal 0 1] c9wSol .empty 3 =
      .ok (some c9wSol, stats') :=
  have hfix : ∀ c ∈ [Constraint.equal 0 1], ∀ v ∈ c.variablesOf,
      Constraint.revise c v c9wSol = .ok none := by
    intro c hc v hv
    fin_cases hc
    fin_cases hv <;> rfl
  ⟨hfix, by decide,
   c9_propagate_fixed_point_amended [Constraint.equal 0 1] c9wSol .empty 3
     hfix (by decide)⟩

end Plico

namespace Plico

theorem shapeEq_refl (a : Solution) : shapeEq a a := ⟨rfl, rfl, rfl⟩

theorem shapeEq_trans (a b c : Solution) (h1 : shapeEq a b)
    (h2 : shapeEq b c) : shapeEq a c :=
  ⟨h1.1.trans h2.1, h1.2.1.trans h2.2.1, h1.2.2.trans h2.2.2⟩

theorem shapeEq_of_frame (vars : List Nat) (sol new : Solution)
    (h : reviseFrameProp vars sol new) : shapeEq new sol :=
  ⟨h.2.2.1, h.1, h.2.1⟩

theorem enqueue_inner_mem (prio cid tv : Nat) :
    ∀ (vs : List Nat) (wl : WorkList) (it : WorkItem),
    it ∈ (vs.foldl
      (fun w2 nv => if nv ≠ tv then w2.pushBack prio nv cid else w2) wl).queue →
    it ∈ wl.queue ∨ ∃ v ∈ vs, it = ⟨prio, v, cid⟩ := by
  intro vs
  induction vs with
  | nil => intro wl it hit; exact Or.inl hit
  | cons v rest ih =>
    intro wl it hit
    simp only [List.foldl_cons] at hit
    rcases ih _ it hit with hm | ⟨w, hw, heq⟩
    · by_cases hvt : v ≠ tv
      · rw [if_pos hvt] at hm
        rcases pushBack_queue_mem wl prio v cid it hm with hm' | heq
        · exact Or.inl hm'
        · exact Or.inr ⟨v, List.mem_cons_self v rest, heq⟩
      · rw [if_neg hvt] at hm
        exact Or.inl hm
    · exact Or.inr ⟨w, List.mem_cons_of_mem v hw, heq⟩

theorem enqueue_outer_mem (cs : List Constraint) (tv : Nat) :
    ∀ (l : List Nat) (wl : WorkList) (it : WorkItem),
    it ∈ (l.foldl (fun w depCid =>
      match cs.get? depCid with
      | some depC =>
        depC.variablesOf.foldl (fun w2 nv =>
          if nv ≠ tv then w2.pushBack depC.priorityOf nv depCid else w2) w
      | none => w) wl).queue →
    it ∈ wl.queue ∨ ∃ cid, ∃ c, cs.get? cid = some c ∧
      ∃ v ∈ c.variablesOf, it = ⟨c.priorityOf, v, cid⟩ := by
  intro l
  induction l with
  | nil => intro wl it hit; exact Or.inl hit
  | cons cid rest ih =>
    intro wl it hit
    simp only [List.foldl_cons] at hit
    rcases ih _ it hit with hm | hvalid
    · cases hc : cs.get? cid with
      | none => rw [hc] at hm; exact Or.inl hm
      | some c =>
        rw [hc] at hm
        rcases enqueue_inner_mem c.priorityOf cid tv c.variablesOf wl it hm with
          hm' | ⟨v, hv, heq⟩
        · exact Or.inl hm'
        · exact Or.inr ⟨cid, c, hc, v, hv, heq⟩
    · exact Or.inr hvalid

theorem enqueueNeighbors_valid (cs : List Constraint) (tv : Nat)
    (wl : WorkList) (hwl : ∀ it ∈ wl.queue, arcValid cs it) :
    ∀ it ∈ (enqueueNeighbors cs tv wl).queue, arcValid cs it := by
  intro it hit
  unfold enqueueNeighbors at hit
  rcases enqueue_outer_mem cs tv (depConstraints cs tv) wl it hit with
    hm | ⟨cid, c, hc, v, hv, heq⟩
  · exact hwl it hm
  · subst heq
    exact ⟨c, hc, hv⟩

theorem popFront_queue_subset (wl : WorkList) (pr : Nat × Nat)
    (wl' : WorkList) (h : wl.popFront = some (pr, wl')) :
    ∀ it ∈ wl'.queue, it ∈ wl.queue := by
  unfold WorkList.popFront at h
  cases hq : heapPop wl.queue with
  | none => rw [hq] at h; exact absurd h (by simp)
  | some p =>
    obtain ⟨item, q⟩ := p
    rw [hq] at h
    simp only [Option.some.injEq, Prod.mk.injEq] at h
    intro it hit
    rw [← h.2] at hit
    exact (heapPop_perm wl.queue item q hq).subset (List.mem_cons_of_mem _ hit)

theorem popFront_popped_valid (wl : WorkList) (v cid : Nat)
    (wl' : WorkList) (h : wl.popFront = some ((v, cid), wl')) :
    ∃ it ∈ wl.queue, it.variableId = v ∧ it.constraintId = cid := by
  unfold WorkList.popFront at h
  cases hq : heapPop wl.queue with
  | none => rw [hq] at h; exact absurd h (by simp)
  | some p =>
    obtain ⟨item, q⟩ := p
    rw [hq] at h
    simp only [Option.some.injEq, Prod.mk.injEq] at h
    exact ⟨item, (heapPop_perm wl.queue item q hq).subset
      (List.mem_cons_self _ _), h.1.1, h.1.2⟩

theorem propagateLoop_shape (cs : List Constraint) :
    ∀ (fuel : Nat) (wl : WorkList) (s : Solution) (stats : SearchStats)
      (out : Solution) (st' : SearchStats),
    (∀ it ∈ wl.queue, arcValid cs it) →
    propagateLoop cs fuel wl s stats = .ok (some out, st') →
    shapeEq out s := by
  intro fuel
  induction fuel with
  | zero =>
    intro wl s stats out st' _ h
    exact absurd h (by simp [propagateLoop])
  | succ fuel ih =>
    intro wl s stats out st' harcs h
    rw [propagateLoop] at h
    split at h
    · simp only [Except.ok.injEq, Prod.mk.injEq, Option.some.injEq] at h
      rw [← h.1]
      exact shapeEq_refl s
    · rename_i targetVar cid wl' hpop
      have hsub := popFront_queue_subset wl (targetVar, cid) wl' hpop
      have harcs' : ∀ it ∈ wl'.queue, arcValid cs it :=
        fun it hit => harcs it (hsub it hit)
      split at h
      · exact absurd h (by simp)
      · rename_i constraint hget
        simp only [Bind.bind, Except.bind] at h
        split at h
        · exact absurd h (by simp)
        · rename_i r hrev
          split at h
          · rename_i newSolution
            split at h
            · rename_i oldD newD holdD hnewD
              split at h
              · exact absurd h (by simp)
              · rename_i hnz
                split at h
                · rename_i hshrink
                  have hvalid2 : ∀ it ∈
                      (enqueueNeighbors cs targetVar wl').queue,
                      arcValid cs it :=
                    enqueueNeighbors_valid cs targetVar wl' harcs'
                  have hshape1 := ih _ _ _ _ _ hvalid2 h
                  obtain ⟨it, hitmem, hvq, hcq⟩ :=
                    popFront_popped_valid wl targetVar cid wl' hpop
                  obtain ⟨c, hc, hvv⟩ := harcs it hitmem
                  rw [hcq, hget] at hc
                  obtain rfl := Option.some.inj hc
                  have htv : targetVar ∈ constraint.variablesOf := hvq ▸ hvv
                  have hshape2 := shapeEq_of_frame _ s newSolution
                    (revise_frame constraint targetVar s newSolution htv hrev)
                  exact shapeEq_trans out newSolution s hshape1 hshape2
                · exact ih _ _ _ _ _ harcs' h
            · exact absurd h (by simp)
          · exact ih _ _ _ _ _ harcs' h

end Plico

namespace Plico

theorem propagate_shape (cs : List Constraint) (s : Solution)
    (stats : SearchStats) (fuel : Nat) (out : Solution) (st' : SearchStats)
    (h : propagate cs s stats fuel = .ok (some out, st')) : shapeEq out s := by
  unfold propagate at h
  refine propagateLoop_shape cs fuel _ s stats out st' ?_ h
  intro it hit
  exact seed_arcs cs it hit

theorem tryValues_shape (cs : List Constraint) (pfuel : Nat)
    (searchCont : Solution → SearchStats →
      Except Err (Option Solution × SearchStats))
    (hcont : ∀ s st out st2, searchCont s st = .ok (some out, st2) →
      shapeEq out s)
    (varToBranch : Nat) (solution : Solution)
    (hvb : varToBranch ∈ keysD solution.domains) :
    ∀ (values : List SVal) (stats : SearchStats) (out : Solution)
      (st' : SearchStats),
    tryValues cs pfuel searchCont varToBranch solution values stats =
      .ok (some out, st') →
    shapeEq out solution := by
  intro values
  induction values with
  | nil =>
    intro stats out st' h
    exact absurd h (by simp [tryValues])
  | cons value rest ih =>
    intro stats out st' h
    obtain ⟨xd, hxd⟩ := lookupD_isSome_of_mem_keys solution.domains
      varToBranch hvb
    rw [tryValues] at h
    simp only [Bind.bind, Except.bind] at h
    split at h
    · exact absurd h (by simp)
    · rename_i pr hprop
      obtain ⟨prop, stats1⟩ := pr
      have hguess : shapeEq (solution.cloneWithDomains
          (updateD solution.domains varToBranch [value])) solution :=
        ⟨keysD_updateD_of_mem _ _ _ _ hxd, rfl, rfl⟩
      split at h
      · rename_i propagated hpropeq
        simp only [] at hpropeq
        subst hpropeq
        have hps : shapeEq propagated solution :=
          shapeEq_trans _ _ _
            (propagate_shape cs _ stats pfuel propagated stats1 hprop) hguess
        split at h
        · exact absurd h (by simp)
        · rename_i pr2 hsc
          obtain ⟨found, stats2⟩ := pr2
          split at h
          · rename_i s hfound
            simp only [] at hfound
            subst hfound
            simp only [Except.ok.injEq, Prod.mk.injEq, Option.some.injEq] at h
            rw [← h.1]
            exact shapeEq_trans s propagated solution
              (hcont propagated stats1 s stats2 hsc) hps
          · exact ih _ out st' h
      · exact ih _ out st' h

theorem searchAux_shape (cs : List Constraint) (pfuel : Nat) :
    ∀ (fuel : Nat) (solution : Solution) (stats : SearchStats)
      (out : Solution) (st' : SearchStats),
    searchAux cs pfuel fuel solution stats = .ok (some out, st') →
    shapeEq out solution := by
  intro fuel
  induction fuel with
  | zero =>
    intro sol stats out st' h
    exact absurd h (by simp [searchAux])
  | succ fuel ih =>
    intro sol stats out st' h
    rw [searchAux] at h
    split at h
    · simp only [Except.ok.injEq, Prod.mk.injEq, Option.some.injEq] at h
      rw [← h.1]
      exact shapeEq_refl sol
    · split at h
      · simp only [Except.ok.injEq, Prod.mk.injEq, Option.some.injEq] at h
        rw [← h.1]
        exact shapeEq_refl sol
      · rename_i varToBranch hsel
        split at h
        · exact absurd h (by simp)
        · rename_i d hlook
          exact tryValues_shape cs pfuel _
            (fun s st o st2 hh => ih s st o st2 hh) varToBranch sol
            (mem_keysD_of_lookup _ _ _ hlook) (sortSVal d) _ out st' h

theorem backtrackingSolve_shape (cs : List Constraint) (s0 : Solution)
    (pfuel sfuel : Nat) (out : Solution) (st' : SearchStats)
    (h : backtrackingSolve cs s0 pfuel sfuel = .ok (some out, st')) :
    shapeEq out s0 := by
  unfold backtrackingSolve at h
  simp only [Bind.bind, Except.bind] at h
  split at h
  · exact absurd h (by simp)
  · rename_i pr hprop
    obtain ⟨prop, stats⟩ := pr
    split at h
    · exact absurd h (by simp)
    · rename_i solution hprop2
      simp only [] at hprop2
      subst hprop2
      have h1 : shapeEq solution s0 :=
        propagate_shape cs s0 .empty pfuel solution stats hprop
      split at h
      · simp only [Except.ok.injEq, Prod.mk.injEq, Option.some.injEq] at h
        rw [← h.1]
        exact h1
      · exact shapeEq_trans _ _ _
          (searchAux_shape cs pfuel sfuel solution stats out st' h) h1

/-- **C10**: every solution produced or adopted during one solve call — by
a successful revision, by the propagation loop, or by the backtracking
search as a whole — keeps the initial solution's domain key set, its
variable metadata and its shared semantics handle; only domain entries of
already-present variables are replaced. -/
theorem c10_solution_shape_preserved :
    (∀ (c : Constraint) (t : Nat) (sol new : Solution), t ∈ c.variablesOf →
      Constraint.revise c t sol = .ok (some new) → shapeEq new sol) ∧
    (∀ (cs : List Constraint) (s : Solution) (stats : SearchStats)
        (fuel : Nat) (out : Solution) (st' : SearchStats),
      propagate cs s stats fuel = .ok (some out, st') → shapeEq out s) ∧
    (∀ (cs : List Constraint) (s0 : Solution) (pfuel sfuel : Nat)
        (out : Solution) (st' : SearchStats),
      backtrackingSolve cs s0 pfuel sfuel = .ok (some out, st') →
      shapeEq out s0) :=
  ⟨fun c t sol new ht h =>
    shapeEq_of_frame _ sol new (revise_frame c t sol new ht h),
   fun cs s stats fuel out st' h => propagate_shape cs s stats fuel out st' h,
   fun cs s0 pfuel sfuel out st' h =>
    backtrackingSolve_shape cs s0 pfuel sfuel out st' h⟩

theorem c10_solution_shape_preserved_witness :
    backtrackingSolve [Constraint.equal 0 1] c2wSol 10 10 =
      .ok (some c2wNew, ⟨0, 0, [(0, ⟨2, 1, 0⟩)]⟩) ∧ shapeEq c2wNew c2wSol :=
  ⟨by rfl,
   c10_solution_shape_preserved.2.2 [Constraint.equal 0 1] c2wSol 10 10
     c2wNew ⟨0, 0, [(0, ⟨2, 1, 0⟩)]⟩ (by rfl)⟩

end Plico
